import Mathlib

/-!
Shallow embedding of the LLVFS virtual file system (llvfs.cpp) and proofs of
the specification claims about it.  Machine integers (S32/U32/S16) are
modelled as `Int`; the operations below never rely on wrap-around in the
states the claims quantify over.  Fatal `llerrs` exits are modelled by
`Option`-valued operations returning `none`; `llwarns` is a no-op.
-/

namespace LLVFS

/-- Block granularity mask from the source: 1024-byte blocks. -/
def FILE_BLOCK_MASK : Int := 1023

/-- Aggressive-eviction target from the source: 5 MiB freed in one stroke. -/
def VFS_CLEANUP_SIZE : Int := 5242880

/-- Sentinel `mLength` for invalid (dummy) LLVFSFileBlocks. -/
def BLOCK_LENGTH_INVALID : Int := -1

/-- Lower bound of the asset-type enumeration.  Modelled from the spec:
`llassettype.h` is not part of the sources; the spec only requires
`AT_NONE ≤ type < AT_COUNT`, and the Linden convention is `AT_NONE = -1`. -/
def AT_NONE : Int := -1

/-- Upper bound of the asset-type enumeration.  Modelled from the spec:
`llassettype.h` is not part of the sources; the bound's exact value does not
matter for any claim. -/
def AT_COUNT : Int := 20

/-- Serialized index-record size, `LLVFSFileBlock::SERIAL_SIZE`. -/
def SERIAL_SIZE : Int := 34

/-- LLVFSBlock: a free extent of the data file, `(mLocation, mLength)`. -/
structure Blk where
  loc : Int
  len : Int
deriving DecidableEq

/-- The three per-block lock kinds (EVFSLock). -/
inductive Lk where
  | read
  | append
  | opn
deriving DecidableEq

/-- LLVFSFileBlock: the in-memory record for one asset.  The UUID is kept as
its raw 16 bytes; `fileType` is the S16 image of the asset-type enum. -/
structure FB where
  loc : Int
  len : Int
  size : Int
  accessTime : Int
  indexLocation : Int
  fileID : List Nat
  fileType : Int
  lkRead : Int
  lkAppend : Int
  lkOpn : Int
deriving DecidableEq

/-- Read one per-kind lock counter of a file block. -/
def FB.getLk (b : FB) : Lk → Int
  | .read => b.lkRead
  | .append => b.lkAppend
  | .opn => b.lkOpn

/-- Write one per-kind lock counter of a file block. -/
def FB.setLk (b : FB) (l : Lk) (v : Int) : FB :=
  match l with
  | .read => { b with lkRead := v }
  | .append => { b with lkAppend := v }
  | .opn => { b with lkOpn := v }

/-- LLVFSFileSpecifier: the asset key (UUID, asset type). -/
structure VKey where
  id : List Nat
  ty : Int
deriving DecidableEq

/-- Byte-lexicographic comparison of two UUIDs (LLUUID operator<). -/
def bytesLt : List Nat → List Nat → Bool
  | [], [] => false
  | [], _ :: _ => true
  | _ :: _, [] => false
  | a :: as, b :: bs => if a < b then true else if b < a then false else bytesLt as bs

/-- LLVFSFileSpecifier::operator<: UUID first, then type. -/
def specLt (a b : VKey) : Bool :=
  if a.id = b.id then a.ty < b.ty else bytesLt a.id b.id

/-- The global per-kind lock counts `mLockCounts` (diagnostics only). -/
structure LockCounts where
  read : Int
  append : Int
  opn : Int
deriving DecidableEq

/-- Read one global lock count. -/
def LockCounts.get (c : LockCounts) : Lk → Int
  | .read => c.read
  | .append => c.append
  | .opn => c.opn

/-- Add `d` to one global lock count. -/
def LockCounts.bump (c : LockCounts) (l : Lk) (d : Int) : LockCounts :=
  match l with
  | .read => { c with read := c.read + d }
  | .append => { c with append := c.append + d }
  | .opn => { c with opn := c.opn + d }

/-! ### The free-space store: twin indexes over the same set of free blocks -/

/-- The two free-block indexes, `mFreeBlocksByLocation` (a location-sorted
map, one entry per location) and `mFreeBlocksByLength` (a length-sorted
multimap).  Both are modelled as lists kept in key order. -/
structure FreeStore where
  byLoc : List Blk
  byLen : List Blk
deriving DecidableEq

/-- Multimap insertion into the by-length index: the new entry goes after all
entries with keys `≤` its length (std::multimap inserts at the upper bound). -/
def insertByLen (b : Blk) : List Blk → List Blk
  | [] => [b]
  | c :: rest => if c.len ≤ b.len then c :: insertByLen b rest else b :: c :: rest

/-- LLVFS::eraseBlockLength: drop this block's entry from the by-length
index.  The source walks entries with the block's length looking for pointer
equality and `llerrs`s when the entry is missing; in a well-formed store the
entry is present, and the missing-entry fatal branch is modelled as a no-op. -/
def eraseBlockLength (byLen : List Blk) (b : Blk) : List Blk :=
  byLen.erase b

/-- LLVFS::eraseBlock: remove the block from both free indexes (the source
erases every by-location entry with the block's location key). -/
def eraseBlock (s : FreeStore) (b : Blk) : FreeStore :=
  { byLoc := s.byLoc.filter (fun c => c.loc ≠ b.loc)
    byLen := eraseBlockLength s.byLen b }

/-- LLVFS::addFreeBlock: insert a free extent, merging with the immediate
previous and/or next free extent when their locations are exactly adjacent.
`lower_bound` on the location map is the takeWhile/dropWhile split of the
location-sorted list. -/
def addFreeBlock (s : FreeStore) (b : Blk) : FreeStore :=
  let pre := s.byLoc.takeWhile (fun c => c.loc < b.loc)
  let post := s.byLoc.dropWhile (fun c => c.loc < b.loc)
  match pre.getLast?, post.head? with
  | some p, some n =>
    if p.loc + p.len = b.loc then
      if b.loc + b.len = n.loc then
        -- merge with both neighbors: previous extends over both, next goes away
        let m : Blk := ⟨p.loc, p.len + b.len + n.len⟩
        { byLoc := pre.dropLast ++ m :: post.tail
          byLen := insertByLen m (eraseBlockLength (eraseBlockLength s.byLen p) n) }
      else
        let m : Blk := ⟨p.loc, p.len + b.len⟩
        { byLoc := pre.dropLast ++ m :: post
          byLen := insertByLen m (eraseBlockLength s.byLen p) }
    else
      if b.loc + b.len = n.loc then
        let m : Blk := ⟨b.loc, n.len + b.len⟩
        { byLoc := pre ++ m :: post.tail
          byLen := insertByLen m (eraseBlockLength s.byLen n) }
      else
        { byLoc := pre ++ b :: post
          byLen := insertByLen b s.byLen }
  | some p, none =>
    if p.loc + p.len = b.loc then
      let m : Blk := ⟨p.loc, p.len + b.len⟩
      { byLoc := pre.dropLast ++ m :: post
        byLen := insertByLen m (eraseBlockLength s.byLen p) }
    else
      { byLoc := pre ++ b :: post
        byLen := insertByLen b s.byLen }
  | none, some n =>
    if b.loc + b.len = n.loc then
      let m : Blk := ⟨b.loc, n.len + b.len⟩
      { byLoc := pre ++ m :: post.tail
        byLen := insertByLen m (eraseBlockLength s.byLen n) }
    else
      { byLoc := pre ++ b :: post
        byLen := insertByLen b s.byLen }
  | none, none =>
    { byLoc := pre ++ b :: post
      byLen := insertByLen b s.byLen }

/-- LLVFS::useFreeSpace: consume the leading `length` bytes of a free block;
the block is deleted if fully consumed, otherwise advanced and re-added. -/
def useFreeSpace (s : FreeStore) (f : Blk) (length : Int) : FreeStore :=
  if f.len = length then
    eraseBlock s f
  else
    addFreeBlock (eraseBlock s f) ⟨f.loc + length, f.len - length⟩

/-- Companion of `addFreeBlock` for the relocation path of setMaxSize, where
the C++ keeps a raw pointer `free_block` across the call: it returns the
values the pointed-to block holds after the merge.  When the watched block is
the absorbed-and-deleted next neighbor the pointer dangles (undefined
behavior in C; unreachable from setMaxSize, where the found block is always
at least as long as the whole new reservation); that case is modelled as the
merged block. -/
def watchAfterAdd (s : FreeStore) (b w : Blk) : Blk :=
  let pre := s.byLoc.takeWhile (fun c => c.loc < b.loc)
  let post := s.byLoc.dropWhile (fun c => c.loc < b.loc)
  match pre.getLast?, post.head? with
  | some p, some n =>
    if p.loc + p.len = b.loc then
      if b.loc + b.len = n.loc then
        if w = p ∨ w = n then ⟨p.loc, p.len + b.len + n.len⟩ else w
      else
        if w = p then ⟨p.loc, p.len + b.len⟩ else w
    else
      if b.loc + b.len = n.loc then
        if w = n then ⟨b.loc, n.len + b.len⟩ else w
      else w
  | some p, none =>
    if p.loc + p.len = b.loc then
      if w = p then ⟨p.loc, p.len + b.len⟩ else w
    else w
  | none, some n =>
    if b.loc + b.len = n.loc then
      if w = n then ⟨b.loc, n.len + b.len⟩ else w
    else w
  | none, none => w

/-! ### Serialization of index records (LLVFSFileBlock::serialize/deserialize) -/

/-- Little-endian byte image of a natural number, `w` bytes wide. -/
def natLE : Nat → Nat → List Nat
  | 0, _ => []
  | w + 1, x => x % 256 :: natLE w (x / 256)

/-- Natural number denoted by a little-endian byte list. -/
def leNat : List Nat → Nat
  | [] => 0
  | b :: rest => b + 256 * leNat rest

/-- Two's-complement little-endian image of an integer, `w` bytes wide. -/
def encInt (w : Nat) (x : Int) : List Nat :=
  natLE w (x.emod (2 ^ (8 * w))).toNat

/-- Decode `w` little-endian bytes as an unsigned integer. -/
def decodeU (bytes : List Nat) : Int :=
  (leNat bytes : Int)

/-- Decode `w` little-endian bytes as a signed (two's-complement) integer. -/
def decodeS (w : Nat) (bytes : List Nat) : Int :=
  let v : Int := (leNat bytes : Int)
  if v < 2 ^ (8 * w - 1) then v else v - 2 ^ (8 * w)

/-- LLVFSFileBlock::serialize: the fixed 34-byte record — location u32 at 0,
length s32 at 4, access time u32 at 8, raw 16-byte UUID at 12, asset type
s16 at 28, size s32 at 30, all integers little-endian. -/
def serializeBlock (b : FB) : List Nat :=
  encInt 4 b.loc ++ encInt 4 b.len ++ encInt 4 b.accessTime ++
    b.fileID ++ encInt 2 b.fileType ++ encInt 4 b.size

/-- LLVFSFileBlock::deserialize: read the six fields back from a 34-byte
record and record the slot offset in `mIndexLocation`; lock counters are
those of a freshly initialized block (zero). -/
def deserializeBlock (bytes : List Nat) (indexLoc : Int) : FB :=
  { loc := decodeU (bytes.take 4)
    len := decodeS 4 ((bytes.drop 4).take 4)
    accessTime := decodeU ((bytes.drop 8).take 4)
    fileID := (bytes.drop 12).take 16
    fileType := decodeS 2 ((bytes.drop 28).take 2)
    size := decodeS 4 ((bytes.drop 30).take 4)
    indexLocation := indexLoc
    lkRead := 0
    lkAppend := 0
    lkOpn := 0 }

/-! ### The VFS state and its operations -/

/-- The mutable VFS state: the asset directory, the twin free indexes, the
reusable index slots, the two host files (as byte lists) and the global lock
counts.  File I/O is modelled by reading and writing the byte lists. -/
structure VFS where
  fileBlocks : List (VKey × FB)
  free : FreeStore
  indexHoles : List Int
  indexFile : List Nat
  dataFile : List Nat
  lockCounts : LockCounts
  readOnly : Bool
deriving DecidableEq

/-- Directory lookup (`mFileBlocks.find`). -/
def findBlock (m : List (VKey × FB)) (k : VKey) : Option FB :=
  (m.find? (fun e => e.1 = k)).map (·.2)

/-- Replace the directory record under key `k` (in-place pointer mutation in
the source). -/
def updBlock (m : List (VKey × FB)) (k : VKey) (f : FB → FB) : List (VKey × FB) :=
  m.map (fun e => if e.1 = k then (e.1, f e.2) else e)

/-- Ordered insertion of a fresh record into the key-sorted directory. -/
def insertBlock (k : VKey) (b : FB) : List (VKey × FB) → List (VKey × FB)
  | [] => [(k, b)]
  | e :: rest => if specLt e.1 k then e :: insertBlock k b rest else (k, b) :: e :: rest

/-- Bytes `[pos, pos+len)` of a host file. -/
def readBytes (file : List Nat) (pos len : Int) : List Nat :=
  (file.drop pos.toNat).take len.toNat

/-- Overwrite a host file at byte offset `pos` (fseek + fwrite); writing at
the end of the file appends. -/
def writeBytes (file : List Nat) (pos : Int) (buf : List Nat) : List Nat :=
  file.take pos.toNat ++ buf ++ file.drop (pos.toNat + buf.length)

/-- The state-and-block outcome of a non-fatal `LLVFS::sync`: pick the slot
(existing `mIndexLocation`, else a popped index hole, else end of file),
record it in the block, push it back as a hole when removing, and write
either the serialized record or 34 zero bytes at the slot. -/
def syncF (st : VFS) (b : FB) (remove : Bool) : VFS × FB :=
  let seekHoles : Int × List Int :=
    if b.indexLocation = -1 then
      match st.indexHoles with
      | h :: t => (h, t)
      | [] => ((st.indexFile.length : Int), [])
    else (b.indexLocation, st.indexHoles)
  let seekPos := seekHoles.1
  let holes := if remove then seekHoles.2 ++ [seekPos] else seekHoles.2
  let buf := if remove then List.replicate 34 0 else serializeBlock b
  ({ st with indexHoles := holes, indexFile := writeBytes st.indexFile seekPos buf },
   { b with indexLocation := seekPos })

/-- LLVFS::sync: persist one index record.  A read-only VFS only warns; a
dummy (invalid-length) block is never written; syncing a zero-length block is
a fatal error. -/
def sync (st : VFS) (b : FB) (remove : Bool) : Option (VFS × FB) :=
  if st.readOnly then some (st, b)
  else if b.len = BLOCK_LENGTH_INVALID then some (st, b)
  else if b.len = 0 then none
  else some (syncF st b remove)

/-- LLVFS::removeFileBlock: persist the removal, convert the extent to a free
block, and zero the in-memory record to an invalid-length dummy that keeps
its locks. -/
def removeFileBlock (st : VFS) (k : VKey) : Option VFS :=
  match findBlock st.fileBlocks k with
  | none => some st
  | some b =>
    (sync st b true).map fun sb =>
      let st1 := sb.1
      let st2 :=
        if 0 < b.len then
          { st1 with free := addFreeBlock st1.free ⟨b.loc, b.len⟩ }
        else st1
      { st2 with
          fileBlocks := updBlock st2.fileBlocks k fun _ =>
            { sb.2 with loc := 0, size := 0, len := BLOCK_LENGTH_INVALID, indexLocation := -1 } }

/-! ### LRU eviction (LLVFS::findFreeBlock) -/

/-- Candidate filter for the LRU set: not the immune block, owns an extent,
and no lock of any kind outstanding. -/
def lruPred (immune : Option VKey) (e : VKey × FB) : Bool :=
  (match immune with
   | some mk => decide (e.1 ≠ mk)
   | none => true) &&
  decide (0 < e.2.len) &&
  decide (e.2.lkRead = 0) && decide (e.2.lkAppend = 0) && decide (e.2.lkOpn = 0)

/-- LLVFSFileBlock::insertLRU: earlier access time first, the block's own
(UUID, type) specifier as the tie-break. -/
def lruLt (x y : VKey × FB) : Bool :=
  if x.2.accessTime = y.2.accessTime then
    specLt ⟨x.2.fileID, x.2.fileType⟩ ⟨y.2.fileID, y.2.fileType⟩
  else decide (x.2.accessTime < y.2.accessTime)

/-- std::set insertion under the LRU comparator; an element equivalent to one
already present is not inserted. -/
def lruInsert (e : VKey × FB) : List (VKey × FB) → List (VKey × FB)
  | [] => [e]
  | h :: t =>
    if lruLt e h then e :: h :: t
    else if lruLt h e then h :: lruInsert e t
    else h :: t

/-- Build the ordered eviction-candidate set from the directory. -/
def buildLRU (entries : List (VKey × FB)) (immune : Option VKey) : List (VKey × FB) :=
  entries.foldl (fun acc e => if lruPred immune e then lruInsert e acc else acc) []

/-- Total length of the file blocks in a candidate list (the cumulative
count the aggressive sweep accumulates). -/
def sumLen (l : List (VKey × FB)) : Int :=
  (l.map (fun e => e.2.len)).sum

/-- Two directory entries are strictly ordered one way or the other by the
LRU comparator (no std::set equivalence).  This holds between distinct
entries of a real directory, whose keys are distinct. -/
def LruComparable (x y : VKey × FB) : Prop :=
  lruLt x y = true ∨ lruLt y x = true

/-- First free block whose length is at least `size`
(`mFreeBlocksByLength.lower_bound(size)`). -/
def lookupFree (byLen : List Blk) (size : Int) : Option Blk :=
  byLen.find? (fun c => size ≤ c.len)

/-- Number of head candidates the aggressive sweep consumes: it keeps
removing while the cumulative freed length is below the target. -/
def aggrCount : List (VKey × FB) → Int → Int → Nat
  | [], _, _ => 0
  | e :: rest, target, cleaned =>
    if cleaned < target then aggrCount rest target (cleaned + e.2.len) + 1 else 0

/-- Remove a run of file blocks (each removal syncs and frees its extent). -/
def removeList (st : VFS) : List (VKey × FB) → Option VFS
  | [] => some st
  | e :: rest => (removeFileBlock st e.1).bind fun st' => removeList st' rest

/-- The aggressive sweep consumes at least one candidate (used for the
termination of the eviction loop below). -/
def aggrCountPos (e : VKey × FB) (rest : List (VKey × FB)) {target : Int}
    (h : 0 < target) : 0 < aggrCount (e :: rest) target 0 := by
  simp [aggrCount, h]

/-- Each pass of the eviction loop strictly shrinks the candidate list (used
for the termination of the eviction loop below). -/
def dropAggrLt (e : VKey × FB) (rest : List (VKey × FB)) {target : Int}
    (h : 0 < target) :
    ((e :: rest).drop (aggrCount (e :: rest) target 0)).length < (e :: rest).length := by
  have := aggrCountPos e rest h
  simp only [List.length_drop, List.length_cons]
  omega

/-- The retry loop of LLVFS::findFreeBlock: look for a large-enough free
block; failing that, evict the least-recently-used candidate (alone when it
is big enough, otherwise aggressively up to `max(size, 5 MiB)`), and retry;
give up when no candidates remain. -/
def ffbLoop (st : VFS) (size : Int) (lru : List (VKey × FB)) : Option (Option Blk × VFS) :=
  match lru with
  | [] =>
    match lookupFree st.free.byLen size with
    | some b => some (some b, st)
    | none => some (none, st)
  | e :: rest =>
    match lookupFree st.free.byLen size with
    | some b => some (some b, st)
    | none =>
      if size ≤ e.2.len then
        match removeFileBlock st e.1 with
        | none => none
        | some st' => ffbLoop st' size rest
      else
        let target := if VFS_CLEANUP_SIZE < size then size else VFS_CLEANUP_SIZE
        match removeList st ((e :: rest).take (aggrCount (e :: rest) target 0)) with
        | none => none
        | some st' => ffbLoop st' size ((e :: rest).drop (aggrCount (e :: rest) target 0))
termination_by lru.length
decreasing_by
  · simp
  · have hpos : (0 : Int) < if VFS_CLEANUP_SIZE < size then size else VFS_CLEANUP_SIZE := by
      unfold VFS_CLEANUP_SIZE
      split <;> omega
    exact dropAggrLt e rest hpos

/-- LLVFS::findFreeBlock: allocation with LRU eviction; the immune block is
never evicted. -/
def findFreeBlock (st : VFS) (size : Int) (immune : Option VKey) :
    Option (Option Blk × VFS) :=
  ffbLoop st size (buildLRU st.fileBlocks immune)

/-! ### setMaxSize -/

/-- Rounding a (positive) size up to the 1024-byte block granularity
(`max_size += FILE_BLOCK_MASK; max_size &= ~FILE_BLOCK_MASK`). -/
def roundToBlock (x : Int) : Int :=
  if x % 1024 = 0 then x else x + (1024 - x % 1024)

/-- Shared tail of every successful setMaxSize path: persist the block and
store the synced record back into the directory. -/
def smsFinish (st : VFS) (k : VKey) (b : FB) : Option (Bool × VFS) :=
  (sync st b false).map fun sb =>
    (true, { sb.1 with fileBlocks := updBlock sb.1.fileBlocks k fun _ => sb.2 })

/-- The relocation arm of a growing setMaxSize: find an unrelated free block
(evicting if needed, the asset itself immune), free the old extent (the
found block may be merged with it — the source keeps a raw pointer across
that call), copy the used bytes, move the record and consume the new space. -/
def smsRelocate (st : VFS) (k : VKey) (b : FB) (ms : Int) : Option (Bool × VFS) :=
  (findFreeBlock st ms (some k)).bind fun r =>
    match r.1 with
    | some f =>
      let st2 := r.2
      let f1 := watchAfterAdd st2.free ⟨b.loc, b.len⟩ f
      let st3 := { st2 with free := addFreeBlock st2.free ⟨b.loc, b.len⟩ }
      let st4 :=
        if 0 < b.size then
          { st3 with dataFile := writeBytes st3.dataFile f1.loc (readBytes st3.dataFile b.loc b.size) }
        else st3
      let st5 := { st4 with free := useFreeSpace st4.free f1 ms }
      smsFinish st5 k { b with loc := f1.loc, len := ms }
    | none => some (false, r.2)

/-- The fresh-allocation arm of setMaxSize (no live extent yet): find a free
block, fill in the existing dummy record or create a new one, consume the
space, stamp the access time and persist. -/
def smsCreate (st : VFS) (k : VKey) (b0 : Option FB) (ms now : Int) : Option (Bool × VFS) :=
  (findFreeBlock st ms none).bind fun r =>
    match r.1 with
    | some f =>
      let st1 := r.2
      match b0 with
      | some bDummy =>
        let b1 := { bDummy with loc := f.loc, len := ms, accessTime := now }
        let st2 := { st1 with fileBlocks := updBlock st1.fileBlocks k fun _ => b1 }
        smsFinish { st2 with free := useFreeSpace st2.free f ms } k b1
      | none =>
        let b1 : FB :=
          { loc := f.loc, len := ms, size := 0, accessTime := now, indexLocation := -1,
            fileID := k.id, fileType := k.ty, lkRead := 0, lkAppend := 0, lkOpn := 0 }
        let st2 := { st1 with fileBlocks := insertBlock k b1 st1.fileBlocks }
        smsFinish { st2 with free := useFreeSpace st2.free f ms } k b1
    | none => some (false, r.2)

/-- LLVFS::setMaxSize: resize (or create) the reservation for an asset.
Sizes are rounded up to 1024-byte granularity.  An equal size is a no-op; a
shrink frees the tail (a stored size above the new length is a fatal
`llerrs`); a grow first tries the exactly adjacent free block, then
relocates; a missing record (or invalid-length dummy) allocates afresh. -/
def setMaxSize (st : VFS) (k : VKey) (maxSize now : Int) : Option (Bool × VFS) :=
  if st.readOnly then none
  else if maxSize ≤ 0 then some (false, st)
  else
    let ms := roundToBlock maxSize
    match findBlock st.fileBlocks k with
    | some b0 =>
      if 0 < b0.len then
        let b := { b0 with accessTime := now }
        let st1 := { st with fileBlocks := updBlock st.fileBlocks k fun _ => b }
        if ms = b.len then some (true, st1)
        else if ms < b.len then
          let st2 := { st1 with free := addFreeBlock st1.free ⟨b.loc + ms, b.len - ms⟩ }
          let b1 := { b with len := ms }
          if b1.len < b1.size then none
          else smsFinish st2 k b1
        else
          let sizeIncrease := ms - b.len
          match (st1.free.byLoc.dropWhile (fun c => c.loc ≤ b.loc)).head? with
          | some f =>
            if f.loc = b.loc + b.len ∧ sizeIncrease ≤ f.len then
              let st2 := { st1 with free := useFreeSpace st1.free f sizeIncrease }
              smsFinish st2 k { b with len := b.len + sizeIncrease }
            else smsRelocate st1 k b ms
          | none => smsRelocate st1 k b ms
      else smsCreate st k (some b0) ms now
    | none => smsCreate st k none ms now

/-! ### Remaining public operations the claims mention -/

/-- LLVFS::getMaxSize: the reserved length of the record under the key (with
an access-time refresh), or 0 when the key is absent. -/
def getMaxSize (st : VFS) (k : VKey) (now : Int) : Int × VFS :=
  match findBlock st.fileBlocks k with
  | some b =>
    (b.len, { st with fileBlocks := updBlock st.fileBlocks k fun _ => { b with accessTime := now } })
  | none => (0, st)

/-- LLVFS::storeData: write payload bytes into the reserved extent.  A
missing record returns 0; an invalid-length dummy (and an out-of-reservation
offset) only warns and reports the requested length as written; otherwise
the write is clamped to the reservation and a growing used size is synced. -/
def storeData (st : VFS) (k : VKey) (buffer : List Nat) (location0 length0 now : Int) :
    Option (Int × VFS) :=
  if st.readOnly then none
  else
    match findBlock st.fileBlocks k with
    | none => some (0, st)
    | some b0 =>
      let location := if location0 = -1 then b0.size else location0
      let b := { b0 with accessTime := now }
      let st1 := { st with fileBlocks := updBlock st.fileBlocks k fun _ => b }
      if b.len = BLOCK_LENGTH_INVALID then some (length0, st1)
      else if b.len < location then some (length0, st1)
      else
        let length := if b.len - location < length0 then b.len - location else length0
        let st2 := { st1 with
          dataFile := writeBytes st1.dataFile (location + b.loc) (buffer.take length.toNat) }
        if b.size < location + length then
          let b1 := { b with size := location + length }
          (sync st2 b1 false).map fun sb =>
            (length, { sb.1 with fileBlocks := updBlock sb.1.fileBlocks k fun _ => sb.2 })
        else some (length, st2)

/-- LLVFS::incLock: bump one lock counter, creating an unsaved dummy record
when the key is absent. -/
def incLock (st : VFS) (k : VKey) (l : Lk) (now : Int) : VFS :=
  match findBlock st.fileBlocks k with
  | some b =>
    { st with
        fileBlocks := updBlock st.fileBlocks k fun _ => b.setLk l (b.getLk l + 1)
        lockCounts := st.lockCounts.bump l 1 }
  | none =>
    let b : FB :=
      { loc := 0, len := BLOCK_LENGTH_INVALID, size := 0, accessTime := now,
        indexLocation := -1, fileID := k.id, fileType := k.ty,
        lkRead := 0, lkAppend := 0, lkOpn := 0 }
    { st with
        fileBlocks := insertBlock k (b.setLk l 1) st.fileBlocks
        lockCounts := st.lockCounts.bump l 1 }

/-- LLVFS::decLock: decrement one lock counter.  An absent key does nothing
at all; a present key with a zero per-block counter only warns and leaves it
at zero — but the global per-kind count is decremented unconditionally. -/
def decLock (st : VFS) (k : VKey) (l : Lk) : VFS :=
  match findBlock st.fileBlocks k with
  | none => st
  | some b =>
    let b1 := if 0 < b.getLk l then b.setLk l (b.getLk l - 1) else b
    { st with
        fileBlocks := updBlock st.fileBlocks k fun _ => b1
        lockCounts := st.lockCounts.bump l (-1) }

/-- Sum of one per-kind lock counter over every directory record. -/
def sumLk (m : List (VKey × FB)) (l : Lk) : Int :=
  (m.map (fun e => e.2.getLk l)).sum

/-! ### Index replay at open (the sanity check of the LLVFS constructor) -/

/-- Outcome of the per-record sanity check during index replay. -/
inductive RecordClass where
  | valid
  | hole
  | corrupt
deriving DecidableEq

/-- The constructor's validation predicate for one deserialized record. -/
def validRecord (dataSize : Int) (r : FB) : Bool :=
  decide (0 < r.len) && decide (r.len ≤ dataSize) &&
  decide (0 ≤ r.loc) && decide (r.loc < dataSize) &&
  decide (0 < r.size) && decide (r.size ≤ r.len) &&
  decide (AT_NONE ≤ r.fileType) && decide (r.fileType < AT_COUNT)

/-- How the constructor treats one record: passing records are inserted;
failing records with nonzero length and positive size are corruption;
everything else is a reusable index hole. -/
def classifyRecord (dataSize : Int) (r : FB) : RecordClass :=
  if validRecord dataSize r then .valid
  else if r.len ≠ 0 ∧ 0 < r.size then .corrupt
  else .hole

/-- The classification the spec claims: among failing records, a hole exactly
when both length and size are zero, corruption otherwise. -/
def claimClassify (dataSize : Int) (r : FB) : RecordClass :=
  if validRecord dataSize r then .valid
  else if r.len = 0 ∧ r.size = 0 then .hole
  else .corrupt

/-- The replay sweep over the parsed `(index offset, record)` list: valid
records go to the directory, holes to `mIndexHoles`; the first corrupt
record aborts the open (`none` — both files are deleted and the VFS reports
`VFSVALID_BAD_CORRUPT`). -/
def replayIndex (dataSize : Int) : List (Int × FB) → Option (List FB × List Int)
  | [] => some ([], [])
  | (off, r) :: rest =>
    match classifyRecord dataSize r with
    | .valid => (replayIndex dataSize rest).map fun p => (r :: p.1, p.2)
    | .hole => (replayIndex dataSize rest).map fun p => (p.1, off :: p.2)
    | .corrupt => none

/-! ### Wellformedness of the free-space store -/

/-- The by-location index is in strictly separated location order: every
block ends strictly before the next one starts. -/
def Sep (l : List Blk) : Prop :=
  l.Pairwise (fun a c => a.loc + a.len < c.loc)

/-- No two free extents are exactly adjacent: no block ends exactly where
another (or itself) begins. -/
def NoAdj (l : List Blk) : Prop :=
  ∀ a ∈ l, ∀ c ∈ l, a.loc + a.len ≠ c.loc

/-- Every free block has positive length. -/
def PosLens (l : List Blk) : Prop :=
  ∀ c ∈ l, 0 < c.len

/-- Wellformedness of the twin free indexes: the location index is strictly
separated with positive lengths, and the length index holds exactly the same
multiset of blocks. -/
def FreeWF (s : FreeStore) : Prop :=
  Sep s.byLoc ∧ PosLens s.byLoc ∧ s.byLoc.Perm s.byLen

/-- The inserted extent does not overlap any block already in the store
(add_free_block is only ever called on extents carved out of allocated or
unindexed space). -/
def Compat (s : FreeStore) (b : Blk) : Prop :=
  ∀ c ∈ s.byLoc, c.loc + c.len ≤ b.loc ∨ b.loc + b.len ≤ c.loc

/-! ## Serialization lemmas and claim C7 -/

theorem natLE_length (w x : Nat) : (natLE w x).length = w := by
  induction w generalizing x with
  | zero => simp [natLE]
  | succ w ih => simp [natLE, ih]

theorem leNat_natLE (w x : Nat) (h : x < 2 ^ (8 * w)) : leNat (natLE w x) = x := by
  induction w generalizing x with
  | zero => simp at h; simp [natLE, leNat, h]
  | succ w ih =>
    have hpow : 2 ^ (8 * (w + 1)) = 2 ^ (8 * w) * 256 := by
      have : 8 * (w + 1) = 8 * w + 8 := by omega
      rw [this, pow_add]
      norm_num
    have hdiv : x / 256 < 2 ^ (8 * w) := by
      rw [hpow] at h
      exact Nat.div_lt_of_lt_mul (by omega)
    simp [natLE, leNat, ih _ hdiv]
    omega

theorem encInt_length (w : Nat) (x : Int) : (encInt w x).length = w := by
  simp [encInt, natLE_length]

theorem pow_cast_int (w : Nat) : (((2 : Nat) ^ w : Nat) : Int) = (2 : Int) ^ w := by
  push_cast
  ring

theorem decodeU_encInt (w : Nat) (x : Int) (h0 : 0 ≤ x) (h1 : x < (2 : Int) ^ (8 * w)) :
    decodeU (encInt w x) = x := by
  have hc := pow_cast_int (8 * w)
  have hm : x.emod ((2 : Int) ^ (8 * w)) = x := Int.emod_eq_of_lt h0 h1
  have hlt : x.toNat < (2 : Nat) ^ (8 * w) := by omega
  simp only [decodeU, encInt, hm, leNat_natLE _ _ hlt]
  omega

theorem decodeS_encInt (w : Nat) (x : Int) (hw : 1 ≤ w)
    (h0 : -((2 : Int) ^ (8 * w - 1)) ≤ x) (h1 : x < (2 : Int) ^ (8 * w - 1)) :
    decodeS w (encInt w x) = x := by
  have hc := pow_cast_int (8 * w)
  have hc1 := pow_cast_int (8 * w - 1)
  have hA1 : (0 : Int) < (2 : Int) ^ (8 * w - 1) := by positivity
  have hpow : (2 : Int) ^ (8 * w) = 2 ^ (8 * w - 1) * 2 := by
    have he : 8 * w = (8 * w - 1) + 1 := by omega
    conv_lhs => rw [he]
    rw [pow_succ]
  rcases le_or_lt 0 x with hx | hx
  · have hm : x.emod ((2 : Int) ^ (8 * w)) = x := Int.emod_eq_of_lt hx (by omega)
    have hlt : x.toNat < (2 : Nat) ^ (8 * w) := by omega
    simp only [decodeS, encInt, hm, leNat_natLE _ _ hlt]
    rw [if_pos (by omega)]
    omega
  · have h3 : (x + (2 : Int) ^ (8 * w)).emod ((2 : Int) ^ (8 * w)) =
        x.emod ((2 : Int) ^ (8 * w)) := by
      have h4 := @Int.add_mul_emod_self_left x ((2 : Int) ^ (8 * w)) 1
      rwa [mul_one] at h4
    have hm : x.emod ((2 : Int) ^ (8 * w)) = x + 2 ^ (8 * w) := by
      rw [← h3]
      exact Int.emod_eq_of_lt (by omega) (by omega)
    have hlt : (x + (2 : Int) ^ (8 * w)).toNat < (2 : Nat) ^ (8 * w) := by omega
    simp only [decodeS, encInt, hm, leNat_natLE _ _ hlt]
    rw [if_neg (by omega)]
    omega

set_option maxRecDepth 4000 in
/-- C7.  Serializing a FileBlock into the fixed 34-byte little-endian record
layout and deserializing that buffer yields a block equal to the original in
location, length, access time, UUID, asset type and size; the record is
exactly 34 bytes. -/
theorem C7_serialize_roundtrip (b : FB) (il : Int)
    (hloc0 : 0 ≤ b.loc) (hloc1 : b.loc < 2 ^ 32)
    (hlen0 : -(2 ^ 31) ≤ b.len) (hlen1 : b.len < 2 ^ 31)
    (hat0 : 0 ≤ b.accessTime) (hat1 : b.accessTime < 2 ^ 32)
    (hid : b.fileID.length = 16)
    (hty0 : -(2 ^ 15) ≤ b.fileType) (hty1 : b.fileType < 2 ^ 15)
    (hsz0 : -(2 ^ 31) ≤ b.size) (hsz1 : b.size < 2 ^ 31) :
    (serializeBlock b).length = 34 ∧
    (deserializeBlock (serializeBlock b) il).loc = b.loc ∧
    (deserializeBlock (serializeBlock b) il).len = b.len ∧
    (deserializeBlock (serializeBlock b) il).accessTime = b.accessTime ∧
    (deserializeBlock (serializeBlock b) il).fileID = b.fileID ∧
    (deserializeBlock (serializeBlock b) il).fileType = b.fileType ∧
    (deserializeBlock (serializeBlock b) il).size = b.size := by
  have hs : serializeBlock b =
      encInt 4 b.loc ++ (encInt 4 b.len ++ (encInt 4 b.accessTime ++
        (b.fileID ++ (encInt 2 b.fileType ++ encInt 4 b.size)))) := by
    simp [serializeBlock, List.append_assoc]
  have e4 : ∀ x : Int, (encInt 4 x).length = 4 := fun x => encInt_length 4 x
  have e2 : ∀ x : Int, (encInt 2 x).length = 2 := fun x => encInt_length 2 x
  constructor
  · simp [serializeBlock, List.length_append, encInt_length, hid]
  have htake4 : (serializeBlock b).take 4 = encInt 4 b.loc := by
    rw [hs]; exact List.take_left' (e4 _)
  have hdrop4 : (serializeBlock b).drop 4 =
      encInt 4 b.len ++ (encInt 4 b.accessTime ++
        (b.fileID ++ (encInt 2 b.fileType ++ encInt 4 b.size))) := by
    rw [hs]; exact List.drop_left' (e4 _)
  have hdrop8 : (serializeBlock b).drop 8 =
      encInt 4 b.accessTime ++ (b.fileID ++ (encInt 2 b.fileType ++ encInt 4 b.size)) := by
    have : (8 : Nat) = 4 + 4 := by norm_num
    rw [this, ← List.drop_drop, hdrop4]
    exact List.drop_left' (e4 _)
  have hdrop12 : (serializeBlock b).drop 12 =
      b.fileID ++ (encInt 2 b.fileType ++ encInt 4 b.size) := by
    have : (12 : Nat) = 8 + 4 := by norm_num
    rw [this, ← List.drop_drop, hdrop8]
    exact List.drop_left' (e4 _)
  have hdrop28 : (serializeBlock b).drop 28 = encInt 2 b.fileType ++ encInt 4 b.size := by
    have : (28 : Nat) = 12 + 16 := by norm_num
    rw [this, ← List.drop_drop, hdrop12]
    exact List.drop_left' hid
  have hdrop30 : (serializeBlock b).drop 30 = encInt 4 b.size := by
    have : (30 : Nat) = 28 + 2 := by norm_num
    rw [this, ← List.drop_drop, hdrop28]
    exact List.drop_left' (e2 _)
  simp only [deserializeBlock]
  refine ⟨?_, ?_, ?_, ?_, ?_, ?_⟩
  · rw [htake4]
    exact decodeU_encInt 4 b.loc hloc0 (by norm_num at hloc1 ⊢; exact hloc1)
  · rw [hdrop4, List.take_left' (e4 _)]
    exact decodeS_encInt 4 b.len (by norm_num)
      (by norm_num at hlen0 ⊢; exact hlen0) (by norm_num at hlen1 ⊢; exact hlen1)
  · rw [hdrop8, List.take_left' (e4 _)]
    exact decodeU_encInt 4 b.accessTime hat0 (by norm_num at hat1 ⊢; exact hat1)
  · rw [hdrop12]
    exact List.take_left' hid
  · rw [hdrop28, List.take_left' (e2 _)]
    exact decodeS_encInt 2 b.fileType (by norm_num)
      (by norm_num at hty0 ⊢; exact hty0) (by norm_num at hty1 ⊢; exact hty1)
  · have h30 : List.take 4 (encInt 4 b.size) = encInt 4 b.size := by
      conv_lhs => rw [← e4 b.size]
      exact List.take_length _
    rw [hdrop30, h30]
    exact decodeS_encInt 4 b.size (by norm_num)
      (by norm_num at hsz0 ⊢; exact hsz0) (by norm_num at hsz1 ⊢; exact hsz1)

/-- Witness for C7 at a concrete block (negative length and size exercise the
two's-complement paths). -/
theorem C7_serialize_roundtrip_witness :
    (serializeBlock ⟨3, -1, -7, 99, 5, List.replicate 16 1, 2, 0, 0, 0⟩).length = 34 ∧
    (deserializeBlock (serializeBlock ⟨3, -1, -7, 99, 5, List.replicate 16 1, 2, 0, 0, 0⟩) 5).loc = 3 := by
  have h := C7_serialize_roundtrip ⟨3, -1, -7, 99, 5, List.replicate 16 1, 2, 0, 0, 0⟩ 5
    (by norm_num) (by norm_num) (by norm_num) (by norm_num) (by norm_num) (by norm_num)
    (by simp) (by norm_num) (by norm_num) (by norm_num) (by norm_num)
  exact ⟨h.1, h.2.1⟩

/-! ## Claim C2: hole versus corrupt during index replay -/

/-- C2 (counterexample).  The claim says a failing record is a hole exactly
when `length == 0 && size == 0`.  The record with `length = 0, size = 1`
fails validation, is not `length == 0 && size == 0`, yet the constructor
files it as a reusable hole (its corrupt test is `length != 0 && size > 0`),
while the claimed rule calls it corrupt. -/
theorem C2_counterexample :
    validRecord 100 ⟨0, 0, 1, 0, -1, [], 0, 0, 0, 0⟩ = false ∧
    classifyRecord 100 ⟨0, 0, 1, 0, -1, [], 0, 0, 0, 0⟩ = RecordClass.hole ∧
    claimClassify 100 ⟨0, 0, 1, 0, -1, [], 0, 0, 0, 0⟩ = RecordClass.corrupt := by
  constructor
  · decide
  constructor
  · decide
  · decide

/-- C2 (amended).  During index replay, a record that fails the validation
predicate is treated as a reusable index hole exactly when its length is zero
or its size is not positive; it is corrupt exactly when its length is nonzero
and its size positive, and any corrupt record aborts the replay (both files
are deleted and open reports BAD_CORRUPT, modelled as `none`). -/
theorem C2_replay_classification (ds : Int) (r : FB) (h : validRecord ds r = false) :
    (classifyRecord ds r = RecordClass.hole ↔ (r.len = 0 ∨ r.size ≤ 0)) ∧
    (classifyRecord ds r = RecordClass.corrupt ↔ (r.len ≠ 0 ∧ 0 < r.size)) ∧
    (∀ (off : Int) (rest : List (Int × FB)), classifyRecord ds r = RecordClass.corrupt →
      replayIndex ds ((off, r) :: rest) = none) := by
  refine ⟨?_, ?_, ?_⟩
  · simp only [classifyRecord, h, Bool.false_eq_true, if_false]
    split_ifs with hc
    · constructor
      · intro hh
        exact hh.elim
      · intro hh
        exfalso
        omega
    · constructor
      · intro _
        omega
      · intro _
        rfl
  · simp only [classifyRecord, h, Bool.false_eq_true, if_false]
    split_ifs with hc
    · constructor
      · intro _
        exact hc
      · intro _
        rfl
    · constructor
      · intro hh
        exact hh.elim
      · intro hh
        exact absurd hh hc
  · intro off rest hcor
    simp [replayIndex, hcor]

/-- Witness for C2 at concrete failing records: `length = 5, size = 0` is a
hole; `length = 5, size = 3, type = 25` is corrupt and aborts the replay. -/
theorem C2_replay_classification_witness :
    classifyRecord 100 ⟨0, 5, 0, 0, -1, [], 0, 0, 0, 0⟩ = RecordClass.hole ∧
    replayIndex 100 [(0, ⟨0, 5, 3, 0, -1, [], 25, 0, 0, 0⟩)] = none := by
  constructor
  · exact (C2_replay_classification 100 ⟨0, 5, 0, 0, -1, [], 0, 0, 0, 0⟩ (by decide)).1.mpr
      (by decide)
  · exact (C2_replay_classification 100 ⟨0, 5, 3, 0, -1, [], 25, 0, 0, 0⟩ (by decide)).2.2 0 []
      ((C2_replay_classification 100 ⟨0, 5, 3, 0, -1, [], 25, 0, 0, 0⟩ (by decide)).2.1.mpr
        (by decide))

/-! ## Directory helper lemmas -/

theorem findBlock_cons_of_pos (e : VKey × FB) (t : List (VKey × FB)) (k : VKey)
    (he : e.1 = k) : findBlock (e :: t) k = some e.2 := by
  simp only [findBlock]
  rw [List.find?_cons_of_pos _ (by simp [he])]
  rfl

theorem findBlock_cons_of_neg (e : VKey × FB) (t : List (VKey × FB)) (k : VKey)
    (he : ¬e.1 = k) : findBlock (e :: t) k = findBlock t k := by
  simp only [findBlock]
  rw [List.find?_cons_of_neg _ (by simp [he])]

theorem findBlock_updBlock (m : List (VKey × FB)) (k : VKey) (f : FB → FB) :
    findBlock (updBlock m k f) k = (findBlock m k).map f := by
  induction m with
  | nil => rfl
  | cons e t ih =>
    by_cases he : e.1 = k
    · have h1 : updBlock (e :: t) k f = (e.1, f e.2) :: updBlock t k f := by
        simp only [updBlock, List.map_cons, if_pos he]
      rw [h1, findBlock_cons_of_pos _ _ _ he,
        findBlock_cons_of_pos (e.1, f e.2) (updBlock t k f) k he]
      rfl
    · have h1 : updBlock (e :: t) k f = e :: updBlock t k f := by
        simp only [updBlock, List.map_cons, if_neg he]
      rw [h1, findBlock_cons_of_neg _ _ _ he, findBlock_cons_of_neg _ _ _ he, ih]

theorem updBlock_id_of_not_mem (m : List (VKey × FB)) (k : VKey) (f : FB → FB)
    (h : ∀ e ∈ m, e.1 ≠ k) : updBlock m k f = m := by
  induction m with
  | nil => rfl
  | cons e t ih =>
    simp only [updBlock, List.map_cons]
    rw [if_neg (h e (by simp))]
    have := ih (fun e' he' => h e' (by simp [he']))
    simp only [updBlock] at this
    rw [this]

theorem updBlock_eq_of_find (m : List (VKey × FB)) (k : VKey) (b : FB)
    (hnd : (m.map Prod.fst).Nodup) (h : findBlock m k = some b) :
    updBlock m k (fun _ => b) = m := by
  induction m with
  | nil => simp [findBlock] at h
  | cons e t ih =>
    simp only [List.map_cons, List.nodup_cons] at hnd
    by_cases he : e.1 = k
    · have hb : e.2 = b := by
        rw [findBlock_cons_of_pos _ _ _ he] at h
        exact Option.some.inj h
      have hrest : updBlock t k (fun _ => b) = t := by
        apply updBlock_id_of_not_mem
        intro e' he' hk
        have hm : e'.1 ∈ List.map Prod.fst t := List.mem_map_of_mem Prod.fst he'
        rw [hk, ← he] at hm
        exact hnd.1 hm
      simp only [updBlock, List.map_cons] at hrest ⊢
      rw [if_pos he, hrest, ← hb]
    · have hfind : findBlock t k = some b := by
        rw [findBlock_cons_of_neg _ _ _ he] at h
        exact h
      have := ih hnd.2 hfind
      simp only [updBlock, List.map_cons] at this ⊢
      rw [if_neg he, this]

theorem LockCounts.get_bump (c : LockCounts) (l : Lk) (d : Int) :
    (c.bump l d).get l = c.get l + d := by
  cases l <;> rfl

/-! ## Claim C8: storeData on an invalid-length dummy block -/

/-- C8.  storeData on a key whose record has the invalid-length sentinel
writes nothing to the data file, changes nothing but the block's access
time, and returns the requested length as if the write had succeeded. -/
theorem C8_storeData_dummy (st : VFS) (k : VKey) (buf : List Nat)
    (loc0 len0 now : Int) (b : FB)
    (hro : st.readOnly = false) (hf : findBlock st.fileBlocks k = some b)
    (hinv : b.len = BLOCK_LENGTH_INVALID) :
    storeData st k buf loc0 len0 now =
      some (len0,
        { st with fileBlocks := updBlock st.fileBlocks k fun _ => { b with accessTime := now } }) ∧
    (VFS.dataFile
      { st with fileBlocks := updBlock st.fileBlocks k fun _ => { b with accessTime := now } })
        = st.dataFile ∧
    (VFS.indexFile
      { st with fileBlocks := updBlock st.fileBlocks k fun _ => { b with accessTime := now } })
        = st.indexFile ∧
    (VFS.free
      { st with fileBlocks := updBlock st.fileBlocks k fun _ => { b with accessTime := now } })
        = st.free := by
  refine ⟨?_, rfl, rfl, rfl⟩
  simp only [storeData, hro, Bool.false_eq_true, if_false, hf]
  simp [hinv]

/-- Witness for C8: a single-entry directory holding a dummy block. -/
theorem C8_storeData_dummy_witness :
    storeData ⟨[(⟨[7], 1⟩, ⟨0, -1, 0, 3, -1, [7], 1, 2, 0, 0⟩)], ⟨[], []⟩, [], [], [10, 20],
        ⟨2, 0, 0⟩, false⟩
      ⟨[7], 1⟩ [1, 2, 3] 0 3 9 =
      some (3, ⟨[(⟨[7], 1⟩, ⟨0, -1, 0, 9, -1, [7], 1, 2, 0, 0⟩)], ⟨[], []⟩, [], [], [10, 20],
        ⟨2, 0, 0⟩, false⟩) := by
  have h := C8_storeData_dummy
    ⟨[(⟨[7], 1⟩, ⟨0, -1, 0, 3, -1, [7], 1, 2, 0, 0⟩)], ⟨[], []⟩, [], [], [10, 20], ⟨2, 0, 0⟩, false⟩
    ⟨[7], 1⟩ [1, 2, 3] 0 3 9 ⟨0, -1, 0, 3, -1, [7], 1, 2, 0, 0⟩ rfl (by decide) (by decide)
  exact h.1.trans (by decide)

/-! ## Claim C9: getMaxSize -/

/-- C9 (counterexample).  The claim adds that max_size never returns a
negative value, but a lock acquired on an absent key creates a dummy record
with length −1, and getMaxSize then returns that −1. -/
theorem C9_counterexample :
    (getMaxSize (incLock ⟨[], ⟨[], []⟩, [], [], [], ⟨0, 0, 0⟩, false⟩ ⟨[7], 1⟩ Lk.read 5)
        ⟨[7], 1⟩ 6).1 = -1 ∧
    (getMaxSize (incLock ⟨[], ⟨[], []⟩, [], [], [], ⟨0, 0, 0⟩, false⟩ ⟨[7], 1⟩ Lk.read 5)
        ⟨[7], 1⟩ 6).1 < 0 := by
  constructor
  · decide
  · decide

/-- C9 (amended).  max_size returns the record's reserved length when the
key is present (the length may be the −1 sentinel of a dummy record, so the
result can be negative) and 0 when no record is present. -/
theorem C9_getMaxSize (st : VFS) (k : VKey) (now : Int) :
    (∀ b, findBlock st.fileBlocks k = some b → (getMaxSize st k now).1 = b.len) ∧
    (findBlock st.fileBlocks k = none → (getMaxSize st k now).1 = 0) := by
  constructor
  · intro b hb
    simp [getMaxSize, hb]
  · intro hb
    simp [getMaxSize, hb]

/-- Witness for C9 on a one-record state and an absent key. -/
theorem C9_getMaxSize_witness :
    (getMaxSize ⟨[(⟨[7], 1⟩, ⟨0, 2048, 5, 3, -1, [7], 1, 0, 0, 0⟩)], ⟨[], []⟩, [], [], [],
        ⟨0, 0, 0⟩, false⟩ ⟨[7], 1⟩ 6).1 = 2048 ∧
    (getMaxSize ⟨[], ⟨[], []⟩, [], [], [], ⟨0, 0, 0⟩, false⟩ ⟨[7], 1⟩ 6).1 = 0 := by
  constructor
  · exact (C9_getMaxSize ⟨[(⟨[7], 1⟩, ⟨0, 2048, 5, 3, -1, [7], 1, 0, 0, 0⟩)], ⟨[], []⟩, [], [],
      [], ⟨0, 0, 0⟩, false⟩ ⟨[7], 1⟩ 6).1 ⟨0, 2048, 5, 3, -1, [7], 1, 0, 0, 0⟩ (by decide)
  · exact (C9_getMaxSize ⟨[], ⟨[], []⟩, [], [], [], ⟨0, 0, 0⟩, false⟩ ⟨[7], 1⟩ 6).2 (by decide)

/-! ## Claim C10: decLock -/

/-- C10.  dec_lock on an absent key is a complete no-op.  On a present key
whose per-kind counter is already zero it leaves every per-block counter
unchanged while still decrementing the global per-kind count, so the global
count drops below the sum of the per-block counters whenever they agreed
before the call. -/
theorem C10_decLock (st : VFS) (k : VKey) (l : Lk)
    (hnd : (st.fileBlocks.map Prod.fst).Nodup) :
    (findBlock st.fileBlocks k = none → decLock st k l = st) ∧
    (∀ b, findBlock st.fileBlocks k = some b → b.getLk l = 0 →
      decLock st k l = { st with lockCounts := st.lockCounts.bump l (-1) } ∧
      sumLk (decLock st k l).fileBlocks l = sumLk st.fileBlocks l ∧
      (decLock st k l).lockCounts.get l = st.lockCounts.get l - 1) := by
  constructor
  · intro h
    simp [decLock, h]
  · intro b hb hz
    have hstate : decLock st k l = { st with lockCounts := st.lockCounts.bump l (-1) } := by
      simp only [decLock, hb]
      rw [if_neg (by omega)]
      rw [updBlock_eq_of_find st.fileBlocks k b hnd hb]
    refine ⟨hstate, ?_, ?_⟩
    · rw [hstate]
    · rw [hstate]
      show (st.lockCounts.bump l (-1)).get l = st.lockCounts.get l - 1
      rw [LockCounts.get_bump]
      ring

/-- Witness for C10: a present key with a zero read counter and a global
read count of 1 — after dec_lock the global count is 0 while the per-block
sum stays 1 (held by a different key). -/
theorem C10_decLock_witness :
    decLock ⟨[(⟨[7], 1⟩, ⟨0, 1024, 0, 3, -1, [7], 1, 0, 0, 0⟩),
              (⟨[9], 1⟩, ⟨0, -1, 0, 3, -1, [9], 1, 1, 0, 0⟩)], ⟨[], []⟩, [], [], [],
        ⟨1, 0, 0⟩, false⟩ ⟨[7], 1⟩ Lk.read =
      ⟨[(⟨[7], 1⟩, ⟨0, 1024, 0, 3, -1, [7], 1, 0, 0, 0⟩),
        (⟨[9], 1⟩, ⟨0, -1, 0, 3, -1, [9], 1, 1, 0, 0⟩)], ⟨[], []⟩, [], [], [],
        ⟨0, 0, 0⟩, false⟩ ∧
    decLock ⟨[], ⟨[], []⟩, [], [], [], ⟨1, 0, 0⟩, false⟩ ⟨[7], 1⟩ Lk.read =
      ⟨[], ⟨[], []⟩, [], [], [], ⟨1, 0, 0⟩, false⟩ := by
  constructor
  · have h := (C10_decLock ⟨[(⟨[7], 1⟩, ⟨0, 1024, 0, 3, -1, [7], 1, 0, 0, 0⟩),
        (⟨[9], 1⟩, ⟨0, -1, 0, 3, -1, [9], 1, 1, 0, 0⟩)], ⟨[], []⟩, [], [], [],
        ⟨1, 0, 0⟩, false⟩ ⟨[7], 1⟩ Lk.read (by decide)).2
      ⟨0, 1024, 0, 3, -1, [7], 1, 0, 0, 0⟩ (by decide) (by decide)
    exact h.1.trans (by decide)
  · exact (C10_decLock ⟨[], ⟨[], []⟩, [], [], [], ⟨1, 0, 0⟩, false⟩ ⟨[7], 1⟩ Lk.read
      (by decide)).1 (by decide)

/-! ## Claim C6: index-slot allocation in sync -/

theorem writeBytes_append (file buf : List Nat) :
    writeBytes file (file.length : Int) buf = file ++ buf := by
  unfold writeBytes
  have h1 : ((file.length : Int)).toNat = file.length := by omega
  rw [h1, List.take_length, List.drop_eq_nil_of_le (by omega)]
  simp

/-- C6.  When a FileBlock is persisted by sync: an already-set index_location
is overwritten in place; otherwise a non-empty index_holes list has its front
popped and reused; otherwise the record is appended at end of the index file
and that offset becomes its index_location.  With remove=true, 34 zero bytes
are written at the slot and the slot is pushed onto index_holes.  A dummy
record with the invalid length sentinel is never written. -/
theorem C6_sync (st : VFS) (b : FB) (r : Bool) (hro : st.readOnly = false) :
    (b.len = BLOCK_LENGTH_INVALID → sync st b r = some (st, b)) ∧
    (0 ≤ b.indexLocation → b.len ≠ BLOCK_LENGTH_INVALID → b.len ≠ 0 →
      sync st b r = some
        ({ st with
            indexHoles := if r then st.indexHoles ++ [b.indexLocation] else st.indexHoles
            indexFile := writeBytes st.indexFile b.indexLocation
              (if r then List.replicate 34 0 else serializeBlock b) },
         b)) ∧
    (∀ h t, b.indexLocation = -1 → st.indexHoles = h :: t →
      b.len ≠ BLOCK_LENGTH_INVALID → b.len ≠ 0 →
      sync st b r = some
        ({ st with
            indexHoles := if r then t ++ [h] else t
            indexFile := writeBytes st.indexFile h
              (if r then List.replicate 34 0 else serializeBlock b) },
         { b with indexLocation := h })) ∧
    (b.indexLocation = -1 → st.indexHoles = [] →
      b.len ≠ BLOCK_LENGTH_INVALID → b.len ≠ 0 →
      sync st b r = some
        ({ st with
            indexHoles := if r then [(st.indexFile.length : Int)] else []
            indexFile := st.indexFile ++ (if r then List.replicate 34 0 else serializeBlock b) },
         { b with indexLocation := (st.indexFile.length : Int) })) := by
  refine ⟨?_, ?_, ?_, ?_⟩
  · intro hinv
    simp [sync, hro, hinv]
  · intro h0 h1 h2
    have hne : ¬b.indexLocation = -1 := by omega
    simp [sync, syncF, hro, h1, h2, hne]
  · intro h t hIL hH h1 h2
    simp [sync, syncF, hro, h1, h2, hIL, hH]
  · intro hIL hH h1 h2
    simp [sync, syncF, hro, h1, h2, hIL, hH, writeBytes_append]

/-- Witness for C6: appending a first record to an empty index file. -/
theorem C6_sync_witness :
    sync ⟨[], ⟨[], []⟩, [], [], [], ⟨0, 0, 0⟩, false⟩ ⟨0, 1024, 0, 3, -1, [7], 1, 0, 0, 0⟩ false =
      some (⟨[], ⟨[], []⟩, [], serializeBlock ⟨0, 1024, 0, 3, -1, [7], 1, 0, 0, 0⟩, [],
              ⟨0, 0, 0⟩, false⟩,
            ⟨0, 1024, 0, 3, 0, [7], 1, 0, 0, 0⟩) := by
  have h := (C6_sync ⟨[], ⟨[], []⟩, [], [], [], ⟨0, 0, 0⟩, false⟩
    ⟨0, 1024, 0, 3, -1, [7], 1, 0, 0, 0⟩ false rfl).2.2.2 rfl rfl (by decide) (by decide)
  exact h.trans (by decide)

/-! ## Free-store lemmas and claim C1 -/

theorem insertByLen_perm (b : Blk) (l : List Blk) : (insertByLen b l).Perm (b :: l) := by
  induction l with
  | nil => simp [insertByLen]
  | cons c rest ih =>
    simp only [insertByLen]
    split_ifs with h
    · exact (ih.cons c).trans (List.Perm.swap b c rest)
    · exact List.Perm.refl _

theorem sep_noadj (l : List Blk) (hsep : Sep l) (hpos : PosLens l) : NoAdj l := by
  induction l with
  | nil =>
    intro a ha
    simp at ha
  | cons x t ih =>
    rw [Sep, List.pairwise_cons] at hsep
    have hx := hpos x (by simp)
    intro a ha c hc
    rcases List.mem_cons.mp ha with ha1 | ha'
    · rcases List.mem_cons.mp hc with hc1 | hc'
      · rw [ha1, hc1]
        omega
      · rw [ha1]
        have h1 := hsep.1 c hc'
        omega
    · rcases List.mem_cons.mp hc with hc1 | hc'
      · rw [hc1]
        have h1 := hsep.1 a ha'
        have h2 := hpos a (List.mem_cons_of_mem _ ha')
        omega
      · exact ih hsep.2 (fun y hy => hpos y (List.mem_cons_of_mem _ hy)) a ha' c hc'

theorem dropWhile_ge (l : List Blk) (x : Int) (hsep : Sep l) (hpos : PosLens l) :
    ∀ c ∈ l.dropWhile (fun c => decide (c.loc < x)), x ≤ c.loc := by
  induction l with
  | nil =>
    intro c hc
    simp at hc
  | cons a t ih =>
    rw [Sep, List.pairwise_cons] at hsep
    rw [List.dropWhile_cons]
    by_cases ha : a.loc < x
    · rw [if_pos (by simpa using ha)]
      exact ih hsep.2 (fun y hy => hpos y (List.mem_cons_of_mem _ hy))
    · rw [if_neg (by simpa using ha)]
      intro c hc
      rcases List.mem_cons.mp hc with rfl | hc'
      · omega
      · have h1 := hsep.1 c hc'
        have h2 := hpos a (by simp)
        omega

theorem erase_perm_split (l q r : List Blk) (a : Blk) (h : l.Perm (q ++ a :: r)) :
    (l.erase a).Perm (q ++ r) := by
  have h1 : l.Perm (a :: (q ++ r)) := h.trans List.perm_middle
  have ha : a ∈ l := h1.mem_iff.mpr (by simp)
  have h2 := List.perm_cons_erase ha
  exact (List.perm_cons a).mp (h2.symm.trans h1)

theorem sep_glue (X Z : List Blk) (y : Blk)
    (h1 : List.Pairwise (fun a c => a.loc + a.len < c.loc) X)
    (h2 : List.Pairwise (fun a c => a.loc + a.len < c.loc) Z)
    (h3 : ∀ x ∈ X, x.loc + x.len < y.loc)
    (h4 : ∀ z ∈ Z, y.loc + y.len < z.loc)
    (h5 : ∀ x ∈ X, ∀ z ∈ Z, x.loc + x.len < z.loc) :
    Sep (X ++ y :: Z) := by
  refine List.pairwise_append.mpr ⟨h1, List.pairwise_cons.mpr ⟨h4, h2⟩, ?_⟩
  intro x hx z hz
  rcases List.mem_cons.mp hz with hz1 | hz'
  · rw [hz1]
    exact h3 x hx
  · exact h5 x hx z hz'

theorem pos_glue (X Z : List Blk) (y : Blk)
    (h1 : PosLens X) (h2 : PosLens Z) (h3 : 0 < y.len) :
    PosLens (X ++ y :: Z) := by
  intro c hc
  rcases List.mem_append.mp hc with hc' | hc'
  · exact h1 c hc'
  · rcases List.mem_cons.mp hc' with hc1 | hc''
    · rw [hc1]
      exact h3
    · exact h2 c hc''

theorem perm_glue (L X Z : List Blk) (y : Blk) (h : L.Perm (X ++ Z)) :
    (X ++ y :: Z).Perm (insertByLen y L) :=
  List.perm_middle.trans ((h.symm.cons y).trans (insertByLen_perm y L).symm)

theorem addFreeBlock_WF (s : FreeStore) (b : Blk) (hWF : FreeWF s) (hb : 0 < b.len)
    (hcompat : Compat s b) : FreeWF (addFreeBlock s b) := by
  obtain ⟨hsep, hpos, hperm⟩ := hWF
  simp only [addFreeBlock]
  set P : Blk → Bool := fun c => decide (c.loc < b.loc) with hPdef
  set pre := List.takeWhile P s.byLoc with hpreDef
  set post := List.dropWhile P s.byLoc with hpostDef
  have hsplit : pre ++ post = s.byLoc := List.takeWhile_append_dropWhile P s.byLoc
  have hsepPP : List.Pairwise (fun a c => a.loc + a.len < c.loc) (pre ++ post) := by
    rw [hsplit]
    exact hsep
  obtain ⟨hsepPre, hsepPost, hcross⟩ := List.pairwise_append.mp hsepPP
  have hmemPre : ∀ c ∈ pre, c ∈ s.byLoc := fun c hc => (List.takeWhile_sublist P).subset hc
  have hmemPost : ∀ c ∈ post, c ∈ s.byLoc := fun c hc => (List.dropWhile_sublist P).subset hc
  have hpreLt : ∀ c ∈ pre, c.loc < b.loc := by
    intro c hc
    rw [hpreDef] at hc
    have := List.mem_takeWhile_imp hc
    rw [hPdef] at this
    simpa using this
  have hpreEnd : ∀ c ∈ pre, c.loc + c.len ≤ b.loc := by
    intro c hc
    rcases hcompat c (hmemPre c hc) with h | h
    · exact h
    · have := hpreLt c hc
      omega
  have hpostGe : ∀ c ∈ post, b.loc + b.len ≤ c.loc := by
    intro c hc
    have hge : b.loc ≤ c.loc := by
      have hc' := hc
      rw [hpostDef, hPdef] at hc'
      exact dropWhile_ge s.byLoc b.loc hsep hpos c hc'
    rcases hcompat c (hmemPost c hc) with h | h
    · have := hpos c (hmemPost c hc)
      omega
    · exact h
  have hpermSplit : s.byLen.Perm (pre ++ post) := by
    rw [hsplit]
    exact hperm.symm
  cases hgl : pre.getLast? with
  | none =>
    have hpreNil : pre = [] := List.getLast?_eq_none_iff.mp hgl
    cases hhd : post.head? with
    | none =>
      have hpostNil : post = [] := List.head?_eq_none_iff.mp hhd
      dsimp only
      refine ⟨?_, ?_, ?_⟩
      · rw [hpreNil, hpostNil]
        exact List.pairwise_singleton _ b
      · rw [hpreNil, hpostNil]
        intro c hc
        rcases List.mem_singleton.mp hc with rfl
        exact hb
      · exact perm_glue s.byLen pre post b hpermSplit
    | some n =>
      obtain ⟨t, ht⟩ := List.head?_eq_some_iff.mp hhd
      have hnmem : n ∈ post := by rw [ht]; simp
      have hposN : 0 < n.len := hpos n (hmemPost n hnmem)
      have hsepNT : List.Pairwise (fun a c => a.loc + a.len < c.loc) (n :: t) := by
        rw [← ht]
        exact hsepPost
      rw [List.pairwise_cons] at hsepNT
      dsimp only
      by_cases hmn : b.loc + b.len = n.loc
      · rw [if_pos hmn]
        have htail : post.tail = t := by simp [ht]
        refine ⟨?_, ?_, ?_⟩
        · rw [hpreNil, htail]
          refine List.pairwise_append.mpr ⟨List.Pairwise.nil, ?_, by simp⟩
          refine List.pairwise_cons.mpr ⟨?_, hsepNT.2⟩
          intro z hz
          have := hsepNT.1 z hz
          dsimp only
          omega
        · rw [hpreNil, htail]
          intro c hc
          rcases List.mem_cons.mp (by simpa using hc) with hc1 | hc'
          · rw [hc1]
            dsimp only
            omega
          · exact hpos c (hmemPost c (by rw [ht]; exact List.mem_cons_of_mem _ hc'))
        · rw [htail]
          have e1 : (eraseBlockLength s.byLen n).Perm (pre ++ t) := by
            apply erase_perm_split s.byLen pre t n
            rw [ht] at hpermSplit
            exact hpermSplit
          exact perm_glue _ pre t _ e1
      · rw [if_neg hmn]
        refine ⟨?_, ?_, ?_⟩
        · refine sep_glue pre post b hsepPre hsepPost ?_ ?_ hcross
          · intro x hx
            rw [hpreNil] at hx
            simp at hx
          · intro z hz
            have h1 := hpostGe z hz
            rcases List.mem_cons.mp (by rw [ht] at hz; exact hz) with hz1 | hz'
            · rw [hz1]
              rw [hz1] at h1
              omega
            · have h2 := hsepNT.1 z hz'
              have h3 := hpostGe n hnmem
              omega
        · exact pos_glue pre post b
            (fun c hc => hpos c (hmemPre c hc)) (fun c hc => hpos c (hmemPost c hc)) hb
        · exact perm_glue s.byLen pre post b hpermSplit
  | some p =>
    obtain ⟨q, hq⟩ := List.getLast?_eq_some_iff.mp hgl
    have hpmem : p ∈ pre := by rw [hq]; simp
    have hposP : 0 < p.len := hpos p (hmemPre p hpmem)
    have hdl : pre.dropLast = q := by rw [hq]; simp
    have hsepQP : List.Pairwise (fun a c => a.loc + a.len < c.loc) (q ++ [p]) := by
      rw [← hq]
      exact hsepPre
    obtain ⟨hsepQ, _, hqp'⟩ := List.pairwise_append.mp hsepQP
    have hqp : ∀ x ∈ q, x.loc + x.len < p.loc := fun x hx => hqp' x hx p (by simp)
    have hqmem : ∀ x ∈ q, x ∈ pre := fun x hx => by rw [hq]; exact List.mem_append_left _ hx
    have hpermQ : s.byLen.Perm (q ++ p :: post) := by
      have h0 := hpermSplit
      rw [hq] at h0
      calc s.byLen.Perm ((q ++ [p]) ++ post) := h0
        _ = q ++ p :: post := by simp
    cases hhd : post.head? with
    | none =>
      have hpostNil : post = [] := List.head?_eq_none_iff.mp hhd
      dsimp only
      by_cases hmp : p.loc + p.len = b.loc
      · rw [if_pos hmp]
        refine ⟨?_, ?_, ?_⟩
        · rw [hdl, hpostNil]
          refine sep_glue q [] _ hsepQ List.Pairwise.nil ?_
            (fun z hz => absurd hz (List.not_mem_nil z))
            (fun x hx z hz => absurd hz (List.not_mem_nil z))
          intro x hx
          dsimp only
          exact hqp x hx
        · rw [hdl, hpostNil]
          refine pos_glue q [] _ (fun c hc => hpos c (hmemPre c (hqmem c hc)))
            (fun c hc => absurd hc (List.not_mem_nil c)) ?_
          dsimp only
          omega
        · rw [hdl]
          have e1 : (eraseBlockLength s.byLen p).Perm (q ++ post) :=
            erase_perm_split s.byLen q post p hpermQ
          exact perm_glue _ q post _ e1
      · rw [if_neg hmp]
        refine ⟨?_, ?_, ?_⟩
        · refine sep_glue pre post b hsepPre hsepPost ?_ ?_ hcross
          · intro x hx
            rcases List.mem_append.mp (by rw [hq] at hx; exact hx) with hx' | hx'
            · have h1 := hqp x hx'
              have h2 := hpreLt p hpmem
              omega
            · rcases List.mem_singleton.mp hx' with rfl
              have := hpreEnd x (by rw [hq]; simp)
              omega
          · intro z hz
            rw [hpostNil] at hz
            simp at hz
        · exact pos_glue pre post b
            (fun c hc => hpos c (hmemPre c hc)) (fun c hc => hpos c (hmemPost c hc)) hb
        · exact perm_glue s.byLen pre post b hpermSplit
    | some n =>
      obtain ⟨t, ht⟩ := List.head?_eq_some_iff.mp hhd
      have hnmem : n ∈ post := by rw [ht]; simp
      have hposN : 0 < n.len := hpos n (hmemPost n hnmem)
      have hsepNT : List.Pairwise (fun a c => a.loc + a.len < c.loc) (n :: t) := by
        rw [← ht]
        exact hsepPost
      rw [List.pairwise_cons] at hsepNT
      have htail : post.tail = t := by simp [ht]
      have htmem : ∀ z ∈ t, z ∈ post := fun z hz => by
        rw [ht]
        exact List.mem_cons_of_mem _ hz
      dsimp only
      by_cases hmp : p.loc + p.len = b.loc
      · by_cases hmn : b.loc + b.len = n.loc
        · rw [if_pos hmp, if_pos hmn]
          refine ⟨?_, ?_, ?_⟩
          · rw [hdl, htail]
            refine sep_glue q t _ hsepQ hsepNT.2 ?_ ?_ ?_
            · intro x hx
              dsimp only
              exact hqp x hx
            · intro z hz
              dsimp only
              have := hsepNT.1 z hz
              omega
            · intro x hx z hz
              exact hcross x (hqmem x hx) z (htmem z hz)
          · rw [hdl, htail]
            refine pos_glue q t _ (fun c hc => hpos c (hmemPre c (hqmem c hc)))
              (fun c hc => hpos c (hmemPost c (htmem c hc))) ?_
            dsimp only
            omega
          · rw [hdl, htail]
            have e1 : (eraseBlockLength s.byLen p).Perm (q ++ n :: t) := by
              apply erase_perm_split s.byLen q (n :: t) p
              rw [ht] at hpermQ
              exact hpermQ
            have e2 : ((eraseBlockLength s.byLen p).erase n).Perm (q ++ t) :=
              erase_perm_split _ q t n e1
            exact perm_glue _ q t _ e2
        · rw [if_pos hmp, if_neg hmn]
          refine ⟨?_, ?_, ?_⟩
          · rw [hdl]
            refine sep_glue q post _ hsepQ hsepPost ?_ ?_ ?_
            · intro x hx
              dsimp only
              exact hqp x hx
            · intro z hz
              dsimp only
              have h1 := hpostGe z hz
              rcases List.mem_cons.mp (by rw [ht] at hz; exact hz) with hz1 | hz'
              · rw [hz1]
                rw [hz1] at h1
                omega
              · have h2 := hsepNT.1 z hz'
                have h3 := hpostGe n hnmem
                omega
            · intro x hx z hz
              exact hcross x (hqmem x hx) z hz
          · rw [hdl]
            refine pos_glue q post _ (fun c hc => hpos c (hmemPre c (hqmem c hc)))
              (fun c hc => hpos c (hmemPost c hc)) ?_
            dsimp only
            omega
          · rw [hdl]
            have e1 : (eraseBlockLength s.byLen p).Perm (q ++ post) :=
              erase_perm_split s.byLen q post p hpermQ
            exact perm_glue _ q post _ e1
      · by_cases hmn : b.loc + b.len = n.loc
        · rw [if_neg hmp, if_pos hmn]
          refine ⟨?_, ?_, ?_⟩
          · rw [htail]
            refine sep_glue pre t _ hsepPre hsepNT.2 ?_ ?_ ?_
            · intro x hx
              dsimp only
              rcases List.mem_append.mp (by rw [hq] at hx; exact hx) with hx' | hx'
              · have h1 := hqp x hx'
                have h2 := hpreLt p hpmem
                omega
              · rcases List.mem_singleton.mp hx' with rfl
                have := hpreEnd x (by rw [hq]; simp)
                omega
            · intro z hz
              dsimp only
              have := hsepNT.1 z hz
              omega
            · intro x hx z hz
              exact hcross x hx z (htmem z hz)
          · rw [htail]
            refine pos_glue pre t _ (fun c hc => hpos c (hmemPre c hc))
              (fun c hc => hpos c (hmemPost c (htmem c hc))) ?_
            dsimp only
            omega
          · rw [htail]
            have e1 : (eraseBlockLength s.byLen n).Perm (pre ++ t) := by
              apply erase_perm_split s.byLen pre t n
              rw [ht] at hpermSplit
              exact hpermSplit
            exact perm_glue _ pre t _ e1
        · rw [if_neg hmp, if_neg hmn]
          refine ⟨?_, ?_, ?_⟩
          · refine sep_glue pre post b hsepPre hsepPost ?_ ?_ hcross
            · intro x hx
              rcases List.mem_append.mp (by rw [hq] at hx; exact hx) with hx' | hx'
              · have h1 := hqp x hx'
                have h2 := hpreLt p hpmem
                omega
              · rcases List.mem_singleton.mp hx' with rfl
                have := hpreEnd x (by rw [hq]; simp)
                omega
            · intro z hz
              have h1 := hpostGe z hz
              rcases List.mem_cons.mp (by rw [ht] at hz; exact hz) with hz1 | hz'
              · rw [hz1]
                rw [hz1] at h1
                omega
              · have h2 := hsepNT.1 z hz'
                have h3 := hpostGe n hnmem
                omega
          · exact pos_glue pre post b
              (fun c hc => hpos c (hmemPre c hc)) (fun c hc => hpos c (hmemPost c hc)) hb
          · exact perm_glue s.byLen pre post b hpermSplit

/-- C1.  After a single call to add_free_block on a well-formed free store
(strictly separated positive extents, twin indexes holding the same blocks)
with a fresh positive-length extent that overlaps nothing, the store contains
no two exactly adjacent free extents, and the by-location and by-length
indexes hold exactly the same multiset of free blocks. -/
theorem C1_addFreeBlock_invariant (s : FreeStore) (b : Blk)
    (hWF : FreeWF s) (hb : 0 < b.len) (hcompat : Compat s b) :
    NoAdj (addFreeBlock s b).byLoc ∧
    ((addFreeBlock s b).byLoc).Perm ((addFreeBlock s b).byLen) := by
  obtain ⟨h1, h2, h3⟩ := addFreeBlock_WF s b hWF hb hcompat
  exact ⟨sep_noadj _ h1 h2, h3⟩

/-- Witness for C1: inserting the extent `[1024, 4096)` between the free
extents `[0, 1024)` and `[4096, 5120)` merges all three into `[0, 5120)`. -/
theorem C1_addFreeBlock_invariant_witness :
    NoAdj (addFreeBlock ⟨[⟨0, 1024⟩, ⟨4096, 1024⟩], [⟨0, 1024⟩, ⟨4096, 1024⟩]⟩
      ⟨1024, 3072⟩).byLoc ∧
    ((addFreeBlock ⟨[⟨0, 1024⟩, ⟨4096, 1024⟩], [⟨0, 1024⟩, ⟨4096, 1024⟩]⟩
      ⟨1024, 3072⟩).byLoc).Perm
      ((addFreeBlock ⟨[⟨0, 1024⟩, ⟨4096, 1024⟩], [⟨0, 1024⟩, ⟨4096, 1024⟩]⟩
        ⟨1024, 3072⟩).byLen) ∧
    (addFreeBlock ⟨[⟨0, 1024⟩, ⟨4096, 1024⟩], [⟨0, 1024⟩, ⟨4096, 1024⟩]⟩
      ⟨1024, 3072⟩).byLoc = [⟨0, 5120⟩] := by
  have h := C1_addFreeBlock_invariant ⟨[⟨0, 1024⟩, ⟨4096, 1024⟩], [⟨0, 1024⟩, ⟨4096, 1024⟩]⟩
    ⟨1024, 3072⟩
    ⟨by unfold Sep; decide, by unfold PosLens; decide, by decide⟩
    (by decide) (by unfold Compat; decide)
  exact ⟨h.1, h.2, by decide⟩

/-! ## setMaxSize lemmas and claims C5 and C4 -/

theorem syncF_free (st : VFS) (b : FB) (r : Bool) : (syncF st b r).1.free = st.free := rfl

theorem syncF_fileBlocks (st : VFS) (b : FB) (r : Bool) :
    (syncF st b r).1.fileBlocks = st.fileBlocks := rfl

theorem syncF_readOnly (st : VFS) (b : FB) (r : Bool) :
    (syncF st b r).1.readOnly = st.readOnly := rfl

theorem syncF_block_loc (st : VFS) (b : FB) (r : Bool) : (syncF st b r).2.loc = b.loc := rfl

theorem syncF_block_len (st : VFS) (b : FB) (r : Bool) : (syncF st b r).2.len = b.len := rfl

theorem syncF_block_size (st : VFS) (b : FB) (r : Bool) : (syncF st b r).2.size = b.size := rfl

theorem findBlock_upd_const (m : List (VKey × FB)) (k : VKey) (b2 : FB)
    (h : (findBlock m k).isSome) :
    findBlock (updBlock m k fun _ => b2) k = some b2 := by
  rw [findBlock_updBlock]
  cases hm : findBlock m k with
  | none =>
    rw [hm] at h
    simp at h
  | some a => rfl

theorem roundToBlock_ge (x : Int) (h : 0 < x) : 1024 ≤ roundToBlock x := by
  unfold roundToBlock
  split_ifs <;> omega

theorem roundToBlock_le (x : Int) : x ≤ roundToBlock x := by
  unfold roundToBlock
  split_ifs <;> omega

/-- C5 (counterexample).  Shrinking an asset whose stored size exceeds the
rounded new length is a fatal error in the source (`llerrs`, changed from a
warning on purpose per the adjacent comment), so the operation does not
return true with a clamped size as the claim asserts: shrinking a block of
length 2048 and size 2000 to 1024 aborts. -/
theorem C5_counterexample :
    setMaxSize ⟨[(⟨[7], 1⟩, ⟨0, 2048, 2000, 3, -1, [7], 1, 0, 0, 0⟩)], ⟨[], []⟩, [], [], [],
        ⟨0, 0, 0⟩, false⟩ ⟨[7], 1⟩ 1024 9 = none := by
  decide

/-- C5 (amended).  For an existing asset whose rounded new length is smaller
than its current length, set_max_size frees exactly the tail extent
`(location + new_length, length − new_length)` via add_free_block and sets
the asset's length to the rounded new length, returning true — provided the
stored size does not exceed the new length.  When the stored size exceeds
the new length the call is a fatal error (`llerrs`); the clamp-and-warn
path claimed by the spec never completes. -/
theorem C5_setMaxSize_shrink (st : VFS) (k : VKey) (maxSize now : Int) (b : FB)
    (hro : st.readOnly = false) (hms : 0 < maxSize)
    (hf : findBlock st.fileBlocks k = some b) (hbpos : 0 < b.len)
    (hlt : roundToBlock maxSize < b.len) :
    (b.size ≤ roundToBlock maxSize →
      ∃ st', setMaxSize st k maxSize now = some (true, st') ∧
        st'.free = addFreeBlock st.free
          ⟨b.loc + roundToBlock maxSize, b.len - roundToBlock maxSize⟩ ∧
        ∃ b', findBlock st'.fileBlocks k = some b' ∧
          b'.len = roundToBlock maxSize ∧ b'.size = b.size ∧ b'.loc = b.loc) ∧
    (roundToBlock maxSize < b.size → setMaxSize st k maxSize now = none) := by
  have hne : ¬maxSize ≤ 0 := by omega
  have h1024 := roundToBlock_ge maxSize hms
  constructor
  · intro hsz
    simp only [setMaxSize, hro, Bool.false_eq_true, if_false, if_neg hne, hf]
    dsimp only
    rw [if_pos hbpos, if_neg (by omega), if_pos (by omega), if_neg (by omega)]
    simp only [smsFinish, sync, syncF_readOnly]
    rw [if_neg (by simp [hro])]
    rw [if_neg (by simp only [BLOCK_LENGTH_INVALID]; omega)]
    rw [if_neg (by omega)]
    refine ⟨_, rfl, ?_, ?_⟩
    · rfl
    · refine ⟨_, findBlock_upd_const _ _ _ ?_, syncF_block_len _ _ _,
        syncF_block_size _ _ _, syncF_block_loc _ _ _⟩
      rw [syncF_fileBlocks]
      dsimp only
      rw [findBlock_updBlock, hf]
      simp
  · intro hsz
    simp only [setMaxSize, hro, Bool.false_eq_true, if_false, if_neg hne, hf]
    dsimp only
    rw [if_pos hbpos, if_neg (by omega), if_pos (by omega), if_pos (by omega)]

/-- Witness for C5: shrinking a 2048-byte reservation with 1000 used bytes
to 1024 frees the tail extent `(1024, 1024)`. -/
theorem C5_setMaxSize_shrink_witness :
    ∃ st', setMaxSize ⟨[(⟨[7], 1⟩, ⟨0, 2048, 1000, 3, -1, [7], 1, 0, 0, 0⟩)], ⟨[], []⟩, [], [],
        [], ⟨0, 0, 0⟩, false⟩ ⟨[7], 1⟩ 1024 9 = some (true, st') ∧
      st'.free = addFreeBlock ⟨[], []⟩ ⟨1024, 1024⟩ ∧
      ∃ b', findBlock st'.fileBlocks ⟨[7], 1⟩ = some b' ∧
        b'.len = 1024 ∧ b'.size = 1000 ∧ b'.loc = 0 := by
  have h := (C5_setMaxSize_shrink ⟨[(⟨[7], 1⟩, ⟨0, 2048, 1000, 3, -1, [7], 1, 0, 0, 0⟩)],
      ⟨[], []⟩, [], [], [], ⟨0, 0, 0⟩, false⟩ ⟨[7], 1⟩ 1024 9
      ⟨0, 2048, 1000, 3, -1, [7], 1, 0, 0, 0⟩ rfl (by norm_num) (by decide) (by norm_num)
      (by decide)).1 (by decide)
  obtain ⟨st', h1, h2, h3⟩ := h
  refine ⟨st', h1, ?_, ?_⟩
  · rw [h2]
    decide
  · have : roundToBlock 1024 = 1024 := by decide
    rw [this] at h3
    exact h3

theorem takeWhile_append_all (p : Blk → Bool) (u v : List Blk) (h : ∀ a ∈ u, p a = true) :
    (u ++ v).takeWhile p = u ++ v.takeWhile p := by
  induction u with
  | nil => rfl
  | cons a t ih =>
    rw [List.cons_append, List.takeWhile_cons, if_pos (h a (by simp)),
      ih fun x hx => h x (by simp [hx])]
    rfl

theorem dropWhile_append_all (p : Blk → Bool) (u v : List Blk) (h : ∀ a ∈ u, p a = true) :
    (u ++ v).dropWhile p = v.dropWhile p := by
  induction u with
  | nil => rfl
  | cons a t ih =>
    rw [List.cons_append, List.dropWhile_cons, if_pos (h a (by simp))]
    exact ih fun x hx => h x (by simp [hx])

theorem map_id_of (g : Blk → Blk) (l : List Blk) (h : ∀ a ∈ l, g a = a) : l.map g = l := by
  induction l with
  | nil => rfl
  | cons a t ih =>
    rw [List.map_cons, h a (by simp), ih fun x hx => h x (by simp [hx])]

/-- In a well-formed store, consuming `n` leading bytes of the member block
`f` removes `f` when fully consumed and otherwise replaces it in place by its
shortened remainder: the incremental merging in add_free_block never fires. -/
theorem useFreeSpace_char (s : FreeStore) (f : Blk) (n : Int)
    (hWF : FreeWF s) (hmem : f ∈ s.byLoc) (hn : 0 < n) (hle : n ≤ f.len) :
    (useFreeSpace s f n).byLoc =
      if f.len = n then s.byLoc.filter (fun c => c.loc ≠ f.loc)
      else s.byLoc.map (fun c => if c.loc = f.loc then ⟨f.loc + n, f.len - n⟩ else c) := by
  obtain ⟨hsep, hpos, _⟩ := hWF
  obtain ⟨u, v, huv⟩ := List.append_of_mem hmem
  have hsepUV : List.Pairwise (fun a c => a.loc + a.len < c.loc) (u ++ f :: v) := by
    rw [← huv]
    exact hsep
  obtain ⟨hsepU, hsepFV, hcrossU⟩ := List.pairwise_append.mp hsepUV
  rw [List.pairwise_cons] at hsepFV
  have huLt : ∀ c ∈ u, c.loc + c.len < f.loc := fun c hc => hcrossU c hc f (by simp)
  have huLoc : ∀ c ∈ u, c.loc < f.loc := by
    intro c hc
    have h1 := huLt c hc
    have h2 := hpos c (by rw [huv]; exact List.mem_append_left _ hc)
    omega
  have hvLoc : ∀ c ∈ v, f.loc + f.len < c.loc := hsepFV.1
  have hfpos : 0 < f.len := hpos f hmem
  have hfilter : s.byLoc.filter (fun c => c.loc ≠ f.loc) = u ++ v := by
    rw [huv, List.filter_append]
    have h1 : u.filter (fun c => decide (c.loc ≠ f.loc)) = u :=
      List.filter_eq_self.mpr fun a ha => by
        have := huLoc a ha
        exact decide_eq_true (by omega)
    have h2 : (f :: v).filter (fun c => decide (c.loc ≠ f.loc)) = v := by
      rw [List.filter_cons_of_neg (by simp)]
      exact List.filter_eq_self.mpr fun a ha => by
        have := hvLoc a ha
        exact decide_eq_true (by omega)
    rw [h1, h2]
  split_ifs with heq
  · simp only [useFreeSpace, if_pos heq, eraseBlock]
  · have hmap : s.byLoc.map (fun c => if c.loc = f.loc then (⟨f.loc + n, f.len - n⟩ : Blk) else c)
        = u ++ (⟨f.loc + n, f.len - n⟩ : Blk) :: v := by
      rw [huv, List.map_append, List.map_cons, if_pos rfl]
      have h1 : u.map (fun c => if c.loc = f.loc then (⟨f.loc + n, f.len - n⟩ : Blk) else c) = u :=
        map_id_of _ u fun a ha => by
          have := huLoc a ha
          rw [if_neg (by omega)]
      have h2 : v.map (fun c => if c.loc = f.loc then (⟨f.loc + n, f.len - n⟩ : Blk) else c) = v :=
        map_id_of _ v fun a ha => by
          have := hvLoc a ha
          rw [if_neg (by omega)]
      rw [h1, h2]
    rw [hmap]
    simp only [useFreeSpace, if_neg heq, eraseBlock, addFreeBlock]
    rw [hfilter]
    have hTW : (u ++ v).takeWhile (fun c => decide (c.loc < f.loc + n)) =
        u ++ v.takeWhile (fun c => decide (c.loc < f.loc + n)) :=
      takeWhile_append_all _ u v fun a ha => by
        have := huLoc a ha
        exact decide_eq_true (by omega)
    have hvNil : v.takeWhile (fun c => decide (c.loc < f.loc + n)) = [] := by
      cases hv : v with
      | nil => rfl
      | cons x xs =>
        have := hvLoc x (by rw [hv]; simp)
        rw [List.takeWhile_cons, if_neg (by simpa using by omega : ¬(decide (x.loc < f.loc + n) = true))]
    have hDW : (u ++ v).dropWhile (fun c => decide (c.loc < f.loc + n)) = v := by
      rw [dropWhile_append_all _ u v fun a ha => by
        have := huLoc a ha
        exact decide_eq_true (by omega)]
      cases hv : v with
      | nil => rfl
      | cons x xs =>
        have := hvLoc x (by rw [hv]; simp)
        rw [List.dropWhile_cons, if_neg (by simpa using by omega : ¬(decide (x.loc < f.loc + n) = true))]
    rw [hTW, hvNil, List.append_nil, hDW]
    cases hgl : u.getLast? with
    | none =>
      cases hhd : v.head? with
      | none => rfl
      | some vn =>
        have hvn : vn ∈ v := by
          obtain ⟨ys, hys⟩ := List.head?_eq_some_iff.mp hhd
          rw [hys]
          simp
        have hcond : ¬(f.loc + n + (f.len - n) = vn.loc) := by
          have := hvLoc vn hvn
          omega
        dsimp only
        rw [if_neg hcond]
    | some up =>
      have hup : up ∈ u := by
        obtain ⟨ys, hys⟩ := List.getLast?_eq_some_iff.mp hgl
        rw [hys]
        simp
      have hcondUp : ¬(up.loc + up.len = f.loc + n) := by
        have := huLt up hup
        omega
      cases hhd : v.head? with
      | none =>
        dsimp only
        rw [if_neg hcondUp]
      | some vn =>
        have hvn : vn ∈ v := by
          obtain ⟨ys, hys⟩ := List.head?_eq_some_iff.mp hhd
          rw [hys]
          simp
        have hcondVn : ¬(f.loc + n + (f.len - n) = vn.loc) := by
          have := hvLoc vn hvn
          omega
        dsimp only
        rw [if_neg hcondUp, if_neg hcondVn]

/-- C4.  For an existing asset whose rounded new length exceeds its current
length, when the free block with the smallest location greater than the
asset's location begins exactly at `location + length` and is at least as
long as the increase, set_max_size grows the asset in place: the location is
unchanged, the length becomes the rounded new length, and exactly the needed
prefix of that free block is consumed (the block disappears when fully
consumed, otherwise it is advanced by the increase and shortened). -/
theorem C4_setMaxSize_grow_in_place (st : VFS) (k : VKey) (maxSize now : Int) (b : FB) (f : Blk)
    (hro : st.readOnly = false) (hms : 0 < maxSize)
    (hf : findBlock st.fileBlocks k = some b) (hbpos : 0 < b.len)
    (hgt : b.len < roundToBlock maxSize)
    (hWF : FreeWF st.free)
    (hnext : (st.free.byLoc.dropWhile (fun c => decide (c.loc ≤ b.loc))).head? = some f)
    (hadj : f.loc = b.loc + b.len)
    (hfit : roundToBlock maxSize - b.len ≤ f.len) :
    ∃ st', setMaxSize st k maxSize now = some (true, st') ∧
      (∃ b', findBlock st'.fileBlocks k = some b' ∧ b'.loc = b.loc ∧
        b'.len = roundToBlock maxSize) ∧
      st'.free.byLoc =
        if f.len = roundToBlock maxSize - b.len
        then st.free.byLoc.filter (fun c => c.loc ≠ f.loc)
        else st.free.byLoc.map (fun c =>
          if c.loc = f.loc then
            ⟨f.loc + (roundToBlock maxSize - b.len), f.len - (roundToBlock maxSize - b.len)⟩
          else c) := by
  have hne : ¬maxSize ≤ 0 := by omega
  have h1024 := roundToBlock_ge maxSize hms
  have hmemf : f ∈ st.free.byLoc := by
    obtain ⟨ys, hys⟩ := List.head?_eq_some_iff.mp hnext
    exact (List.dropWhile_sublist _).subset (by rw [hys]; simp)
  simp only [setMaxSize, hro, Bool.false_eq_true, if_false, if_neg hne, hf]
  dsimp only
  rw [if_pos hbpos, if_neg (by omega), if_neg (by omega), hnext]
  dsimp only
  rw [if_pos ⟨hadj, hfit⟩]
  simp only [smsFinish, sync, syncF_readOnly]
  rw [if_neg (by simp [hro])]
  rw [if_neg (by simp only [BLOCK_LENGTH_INVALID]; omega)]
  rw [if_neg (by omega)]
  refine ⟨_, rfl, ?_, ?_⟩
  · refine ⟨_, findBlock_upd_const _ _ _ ?_, ?_, ?_⟩
    · rw [syncF_fileBlocks]
      dsimp only
      rw [findBlock_updBlock, hf]
      simp
    · exact syncF_block_loc _ _ _
    · rw [syncF_block_len]
      dsimp only
      omega
  · have hchar := useFreeSpace_char st.free f (roundToBlock maxSize - b.len) hWF hmemf
      (by omega) hfit
    exact hchar

/-- Witness for C4: growing a 1024-byte asset at location 0 to 2048 consumes
the leading 1024 bytes of the adjacent free block `[1024, 3072)`. -/
theorem C4_setMaxSize_grow_in_place_witness :
    ∃ st', setMaxSize ⟨[(⟨[7], 1⟩, ⟨0, 1024, 1000, 3, -1, [7], 1, 0, 0, 0⟩)],
        ⟨[⟨1024, 2048⟩], [⟨1024, 2048⟩]⟩, [], [], [], ⟨0, 0, 0⟩, false⟩ ⟨[7], 1⟩ 2048 9 =
        some (true, st') ∧
      (∃ b', findBlock st'.fileBlocks ⟨[7], 1⟩ = some b' ∧ b'.loc = 0 ∧ b'.len = 2048) ∧
      st'.free.byLoc = [⟨2048, 1024⟩] := by
  have h := C4_setMaxSize_grow_in_place ⟨[(⟨[7], 1⟩, ⟨0, 1024, 1000, 3, -1, [7], 1, 0, 0, 0⟩)],
      ⟨[⟨1024, 2048⟩], [⟨1024, 2048⟩]⟩, [], [], [], ⟨0, 0, 0⟩, false⟩ ⟨[7], 1⟩ 2048 9
      ⟨0, 1024, 1000, 3, -1, [7], 1, 0, 0, 0⟩ ⟨1024, 2048⟩
      rfl (by norm_num) (by decide) (by norm_num) (by decide)
      ⟨by unfold Sep; decide, by unfold PosLens; decide, by decide⟩
      (by decide) (by decide) (by decide)
  obtain ⟨st', h1, h2, h3⟩ := h
  refine ⟨st', h1, ?_, ?_⟩
  · obtain ⟨b', hb1, hb2, hb3⟩ := h2
    refine ⟨b', hb1, hb2, ?_⟩
    rw [hb3]
    decide
  · rw [h3]
    decide

/-! ## LRU comparator lemmas and claim C3 -/

theorem bytesLt_asymm (a b : List Nat) (h : bytesLt a b = true) : bytesLt b a = false := by
  induction a generalizing b with
  | nil =>
    cases b with
    | nil => simp [bytesLt] at h
    | cons y ys => rfl
  | cons x xs ih =>
    cases b with
    | nil => simp [bytesLt] at h
    | cons y ys =>
      simp only [bytesLt] at h ⊢
      split_ifs at h ⊢ with h1 h2 h3 _h4 <;> first | rfl | omega | exact ih ys h

theorem bytesLt_total (a b : List Nat) (h1 : bytesLt a b = false) (h2 : bytesLt b a = false) :
    a = b := by
  induction a generalizing b with
  | nil =>
    cases b with
    | nil => rfl
    | cons y ys => simp [bytesLt] at h1
  | cons x xs ih =>
    cases b with
    | nil => simp [bytesLt] at h2
    | cons y ys =>
      simp only [bytesLt] at h1 h2
      split_ifs at h1 h2 with h3 h4 <;> try omega
      rw [ih ys h1 h2]
      have : x = y := by omega
      rw [this]

theorem bytesLt_trans (a b c : List Nat) (h1 : bytesLt a b = true) (h2 : bytesLt b c = true) :
    bytesLt a c = true := by
  induction a generalizing b c with
  | nil =>
    cases c with
    | nil =>
      cases b with
      | nil => simp [bytesLt] at h1
      | cons y ys => simp [bytesLt] at h2
    | cons z zs => rfl
  | cons x xs ih =>
    cases b with
    | nil => simp [bytesLt] at h1
    | cons y ys =>
      cases c with
      | nil => simp [bytesLt] at h2
      | cons z zs =>
        simp only [bytesLt] at h1 h2 ⊢
        split_ifs at h1 h2 ⊢ with g1 g2 g3 g4 g5 g6 <;>
          first | rfl | omega | exact ih ys zs h1 h2

theorem specLt_asymm (a b : VKey) (h : specLt a b = true) : specLt b a = false := by
  by_cases h1 : a.id = b.id
  · rw [specLt, if_pos h1] at h
    rw [specLt, if_pos h1.symm]
    simp at h ⊢
    omega
  · rw [specLt, if_neg h1] at h
    rw [specLt, if_neg (fun hh => h1 hh.symm)]
    exact bytesLt_asymm _ _ h

theorem specLt_total (a b : VKey) (h1 : specLt a b = false) (h2 : specLt b a = false) :
    a.id = b.id ∧ a.ty = b.ty := by
  by_cases g : a.id = b.id
  · rw [specLt, if_pos g] at h1
    rw [specLt, if_pos g.symm] at h2
    simp at h1 h2
    exact ⟨g, by omega⟩
  · rw [specLt, if_neg g] at h1
    rw [specLt, if_neg (fun hh => g hh.symm)] at h2
    exact absurd (bytesLt_total _ _ h1 h2) g

theorem specLt_trans (a b c : VKey) (h1 : specLt a b = true) (h2 : specLt b c = true) :
    specLt a c = true := by
  by_cases g1 : a.id = b.id <;> by_cases g2 : b.id = c.id
  · rw [specLt, if_pos g1] at h1
    rw [specLt, if_pos g2] at h2
    rw [specLt, if_pos (g1.trans g2)]
    simp at h1 h2 ⊢
    omega
  · rw [specLt, if_neg g2] at h2
    rw [specLt, if_neg (by rw [g1]; exact g2)]
    rw [g1]
    exact h2
  · rw [specLt, if_neg g1] at h1
    rw [specLt, if_neg (by rw [← g2]; exact g1)]
    rw [← g2]
    exact h1
  · rw [specLt, if_neg g1] at h1
    rw [specLt, if_neg g2] at h2
    by_cases g3 : a.id = c.id
    · exfalso
      rw [← g3] at h2
      have hfalse := bytesLt_asymm _ _ h1
      rw [h2] at hfalse
      exact absurd hfalse (by simp)
    · rw [specLt, if_neg g3]
      exact bytesLt_trans _ _ _ h1 h2

theorem lruLt_asymm (x y : VKey × FB) (h : lruLt x y = true) : lruLt y x = false := by
  by_cases h1 : x.2.accessTime = y.2.accessTime
  · rw [lruLt, if_pos h1] at h
    rw [lruLt, if_pos h1.symm]
    exact specLt_asymm _ _ h
  · rw [lruLt, if_neg h1] at h
    rw [lruLt, if_neg (fun hh => h1 hh.symm)]
    simp at h ⊢
    omega

theorem lruLt_trans (x y z : VKey × FB) (h1 : lruLt x y = true) (h2 : lruLt y z = true) :
    lruLt x z = true := by
  by_cases g1 : x.2.accessTime = y.2.accessTime <;>
    by_cases g2 : y.2.accessTime = z.2.accessTime
  · rw [lruLt, if_pos g1] at h1
    rw [lruLt, if_pos g2] at h2
    rw [lruLt, if_pos (g1.trans g2)]
    exact specLt_trans _ _ _ h1 h2
  · rw [lruLt, if_neg g2] at h2
    simp at h2
    rw [lruLt, if_neg (by omega)]
    simp
    omega
  · rw [lruLt, if_neg g1] at h1
    simp at h1
    rw [lruLt, if_neg (by omega)]
    simp
    omega
  · rw [lruLt, if_neg g1] at h1
    rw [lruLt, if_neg g2] at h2
    simp at h1 h2
    rw [lruLt, if_neg (by omega)]
    simp
    omega

theorem mem_lruInsert (x e : VKey × FB) (l : List (VKey × FB)) :
    x ∈ lruInsert e l → x = e ∨ x ∈ l := by
  induction l with
  | nil =>
    intro h
    simp [lruInsert] at h
    exact Or.inl h
  | cons hh t ih =>
    intro h
    simp only [lruInsert] at h
    split_ifs at h with h1 h2
    · rcases List.mem_cons.mp h with h' | h'
      · exact Or.inl h'
      · exact Or.inr h'
    · rcases List.mem_cons.mp h with h' | h'
      · exact Or.inr (by rw [h']; simp)
      · rcases ih h' with h'' | h''
        · exact Or.inl h''
        · exact Or.inr (List.mem_cons_of_mem _ h'')
    · exact Or.inr h

theorem lruInsert_perm (e : VKey × FB) (l : List (VKey × FB))
    (h : ∀ x ∈ l, LruComparable e x) : (lruInsert e l).Perm (e :: l) := by
  induction l with
  | nil => exact List.Perm.refl _
  | cons hh t ih =>
    simp only [lruInsert]
    split_ifs with h1 h2
    · exact List.Perm.refl _
    · exact ((ih fun x hx => h x (List.mem_cons_of_mem _ hx)).cons hh).trans
        (List.Perm.swap e hh t)
    · exfalso
      rcases h hh (by simp) with h' | h'
      · exact absurd h' (by simp [h1])
      · exact absurd h' (by simp [h2])

theorem lruInsert_sorted (e : VKey × FB) (l : List (VKey × FB))
    (hs : l.Pairwise (fun x y => lruLt y x = false)) :
    (lruInsert e l).Pairwise (fun x y => lruLt y x = false) := by
  induction l with
  | nil => simp [lruInsert]
  | cons hh t ih =>
    rw [List.pairwise_cons] at hs
    simp only [lruInsert]
    split_ifs with h1 h2
    · refine List.pairwise_cons.mpr ⟨?_, List.pairwise_cons.mpr ⟨hs.1, hs.2⟩⟩
      intro y hy
      rcases List.mem_cons.mp hy with hy1 | hy'
      · rw [hy1]
        exact lruLt_asymm _ _ h1
      · cases hlt : lruLt y e
        · rfl
        · have := lruLt_trans y e hh hlt h1
          rw [hs.1 y hy'] at this
          exact absurd this (by simp)
    · refine List.pairwise_cons.mpr ⟨?_, ih hs.2⟩
      intro y hy
      rcases mem_lruInsert y e t hy with hy1 | hy'
      · rw [hy1]
        exact lruLt_asymm _ _ h2
      · exact hs.1 y hy'
    · exact List.pairwise_cons.mpr ⟨hs.1, hs.2⟩

theorem buildLRU_foldl (immune : Option VKey) :
    ∀ (l acc : List (VKey × FB)), l.Pairwise LruComparable →
      (∀ x ∈ l, ∀ y ∈ acc, LruComparable x y) →
      acc.Pairwise (fun x y => lruLt y x = false) →
      (List.foldl (fun acc e => if lruPred immune e then lruInsert e acc else acc) acc l).Perm
        (l.filter (lruPred immune) ++ acc) ∧
      (List.foldl (fun acc e => if lruPred immune e then lruInsert e acc else acc)
        acc l).Pairwise (fun x y => lruLt y x = false) := by
  intro l
  induction l with
  | nil =>
    intro acc _ _ hsort
    exact ⟨by simp, hsort⟩
  | cons e t ih =>
    intro acc hpair hcrossAcc hsort
    rw [List.pairwise_cons] at hpair
    simp only [List.foldl_cons]
    by_cases hp : lruPred immune e = true
    · have hcomp : ∀ y ∈ acc, LruComparable e y := fun y hy => hcrossAcc e (by simp) y hy
      have hcrossNew : ∀ x ∈ t, ∀ y ∈ lruInsert e acc, LruComparable x y := by
        intro x hx y hy
        rcases mem_lruInsert y e acc hy with hy1 | hy'
        · rw [hy1]
          rcases hpair.1 x hx with h' | h'
          · exact Or.inr h'
          · exact Or.inl h'
        · exact hcrossAcc x (List.mem_cons_of_mem _ hx) y hy'
      have hstep := ih (lruInsert e acc) hpair.2 hcrossNew (lruInsert_sorted e acc hsort)
      rw [if_pos hp]
      constructor
      · rw [List.filter_cons_of_pos hp, List.cons_append]
        exact hstep.1.trans
          ((List.Perm.append_left _ (lruInsert_perm e acc hcomp)).trans List.perm_middle)
      · exact hstep.2
    · have hstep := ih acc hpair.2
        (fun x hx y hy => hcrossAcc x (List.mem_cons_of_mem _ hx) y hy) hsort
      rw [if_neg hp]
      constructor
      · rw [List.filter_cons_of_neg (by simp [hp])]
        exact hstep.1
      · exact hstep.2

theorem pairwise_comparable (m : List (VKey × FB))
    (hnd : (m.map Prod.fst).Nodup)
    (hcons : ∀ e ∈ m, e.2.fileID = e.1.id ∧ e.2.fileType = e.1.ty) :
    m.Pairwise LruComparable := by
  have hkeys : m.Pairwise (fun a b => a.1 ≠ b.1) := (List.pairwise_map.mp hnd)
  refine hkeys.imp_of_mem ?_
  intro a b ha hb hne
  obtain ⟨ha1, ha2⟩ := hcons a ha
  obtain ⟨hb1, hb2⟩ := hcons b hb
  unfold LruComparable lruLt
  by_cases ht : a.2.accessTime = b.2.accessTime
  · rw [if_pos ht, if_pos ht.symm]
    cases h1 : specLt ⟨a.2.fileID, a.2.fileType⟩ ⟨b.2.fileID, b.2.fileType⟩
    · cases h2 : specLt ⟨b.2.fileID, b.2.fileType⟩ ⟨a.2.fileID, a.2.fileType⟩
      · exfalso
        have := specLt_total _ _ h1 h2
        simp only [ha1, ha2, hb1, hb2] at this
        exact hne (by
          cases a1 : a.1
          cases b1 : b.1
          rw [a1, b1] at this
          simp at this
          simp [this.1, this.2])
      · exact Or.inr rfl
    · exact Or.inl rfl
  · rw [if_neg ht, if_neg (fun hh => ht hh.symm)]
    simp only [decide_eq_true_eq]
    omega

/-- The candidate list the source builds is sorted by (access time, key)
ascending and holds exactly the unlocked, extent-owning, non-immune
directory records. -/
theorem buildLRU_spec (m : List (VKey × FB)) (immune : Option VKey)
    (hnd : (m.map Prod.fst).Nodup)
    (hcons : ∀ e ∈ m, e.2.fileID = e.1.id ∧ e.2.fileType = e.1.ty) :
    (buildLRU m immune).Perm (m.filter (lruPred immune)) ∧
    (buildLRU m immune).Pairwise (fun x y => lruLt y x = false) := by
  have h := buildLRU_foldl immune m [] (pairwise_comparable m hnd hcons)
    (fun x _ y hy => absurd hy (List.not_mem_nil y)) List.Pairwise.nil
  exact ⟨by simpa using h.1, h.2⟩

theorem sync_some_spec (st : VFS) (b : FB) (r : Bool) (hlen : b.len ≠ 0) :
    ∃ sb, sync st b r = some sb ∧ sb.1.free = st.free ∧ sb.1.fileBlocks = st.fileBlocks ∧
      sb.1.readOnly = st.readOnly ∧ sb.2.loc = b.loc ∧ sb.2.len = b.len := by
  by_cases h1 : st.readOnly = true
  · exact ⟨(st, b), by simp [sync, h1], rfl, rfl, rfl, rfl, rfl⟩
  · by_cases h2 : b.len = BLOCK_LENGTH_INVALID
    · exact ⟨(st, b), by simp [sync, h1, h2], rfl, rfl, rfl, rfl, rfl⟩
    · exact ⟨syncF st b r, by simp [sync, h1, h2, hlen], rfl, rfl, rfl, rfl, rfl⟩

theorem removeFileBlock_spec (st : VFS) (k : VKey) (fb : FB)
    (hf : findBlock st.fileBlocks k = some fb) (hlen : 0 < fb.len) :
    ∃ st1, removeFileBlock st k = some st1 ∧
      st1.free = addFreeBlock st.free ⟨fb.loc, fb.len⟩ := by
  obtain ⟨sb, hsb, hfree, _, _, _, _⟩ := sync_some_spec st fb true (by omega)
  unfold removeFileBlock
  rw [hf]
  dsimp only
  rw [hsb]
  refine ⟨_, rfl, ?_⟩
  dsimp only
  rw [if_pos hlen]
  dsimp only
  rw [hfree]

theorem mem_insertByLen_self (b : Blk) (l : List Blk) : b ∈ insertByLen b l := by
  induction l with
  | nil => simp [insertByLen]
  | cons c rest ih =>
    simp only [insertByLen]
    split_ifs with h
    · exact List.mem_cons_of_mem _ ih
    · simp

/-- Adding a free extent always leaves a by-length entry at least as long as
the added extent (the merge cases only lengthen it). -/
theorem addFreeBlock_ge (s : FreeStore) (b : Blk)
    (hnn : ∀ c ∈ s.byLoc, 0 ≤ c.len) :
    ∃ e ∈ (addFreeBlock s b).byLen, b.len ≤ e.len := by
  simp only [addFreeBlock]
  cases hgl : (s.byLoc.takeWhile (fun c => decide (c.loc < b.loc))).getLast? with
  | none =>
    cases hhd : (s.byLoc.dropWhile (fun c => decide (c.loc < b.loc))).head? with
    | none =>
      dsimp only
      exact ⟨b, mem_insertByLen_self _ _, le_refl _⟩
    | some n =>
      have hn : 0 ≤ n.len := by
        obtain ⟨ys, hys⟩ := List.head?_eq_some_iff.mp hhd
        have hmm : n ∈ List.dropWhile (fun c => decide (c.loc < b.loc)) s.byLoc := by
          rw [hys]
          simp
        exact hnn n ((List.dropWhile_sublist _).subset hmm)
      dsimp only
      split_ifs with h1
      · exact ⟨_, mem_insertByLen_self _ _, by dsimp only; omega⟩
      · exact ⟨b, mem_insertByLen_self _ _, le_refl _⟩
  | some p =>
    have hp : 0 ≤ p.len := by
      obtain ⟨ys, hys⟩ := List.getLast?_eq_some_iff.mp hgl
      have hmm : p ∈ List.takeWhile (fun c => decide (c.loc < b.loc)) s.byLoc := by
        rw [hys]
        simp
      exact hnn p ((List.takeWhile_sublist _).subset hmm)
    cases hhd : (s.byLoc.dropWhile (fun c => decide (c.loc < b.loc))).head? with
    | none =>
      dsimp only
      split_ifs with h1
      · exact ⟨_, mem_insertByLen_self _ _, by dsimp only; omega⟩
      · exact ⟨b, mem_insertByLen_self _ _, le_refl _⟩
    | some n =>
      have hn : 0 ≤ n.len := by
        obtain ⟨ys, hys⟩ := List.head?_eq_some_iff.mp hhd
        have hmm : n ∈ List.dropWhile (fun c => decide (c.loc < b.loc)) s.byLoc := by
          rw [hys]
          simp
        exact hnn n ((List.dropWhile_sublist _).subset hmm)
      dsimp only
      split_ifs with h1 h2 h3
      · exact ⟨_, mem_insertByLen_self _ _, by dsimp only; omega⟩
      · exact ⟨_, mem_insertByLen_self _ _, by dsimp only; omega⟩
      · exact ⟨_, mem_insertByLen_self _ _, by dsimp only; omega⟩
      · exact ⟨b, mem_insertByLen_self _ _, le_refl _⟩

theorem aggrCount_spec (l : List (VKey × FB)) (target : Int) :
    ∀ c : Int,
      (target ≤ c + sumLen (l.take (aggrCount l target c)) ∨ aggrCount l target c = l.length) ∧
      (∀ m < aggrCount l target c, c + sumLen (l.take m) < target) := by
  induction l with
  | nil =>
    intro c
    refine ⟨Or.inr rfl, ?_⟩
    intro m hm
    simp [aggrCount] at hm
  | cons e t ih =>
    intro c
    by_cases hc : c < target
    · simp only [aggrCount, if_pos hc]
      have iht := ih (c + e.2.len)
      constructor
      · rcases iht.1 with h | h
        · left
          rw [List.take_succ_cons]
          simp only [sumLen, List.map_cons, List.sum_cons] at h ⊢
          omega
        · right
          rw [h]
          simp
      · intro m hm
        cases m with
        | zero => simpa [sumLen] using hc
        | succ m' =>
          have := iht.2 m' (by omega)
          rw [List.take_succ_cons]
          simp only [sumLen, List.map_cons, List.sum_cons] at this ⊢
          omega
    · simp only [aggrCount, if_neg hc]
      refine ⟨Or.inl ?_, ?_⟩
      · simp [sumLen]
        omega
      · intro m hm
        omega

/-- C3.  The eviction engine of find_free_block: (1) the candidate set holds
exactly the FileBlocks with a positive length, all three lock counters zero
and distinct from the immune block, ordered ascending by (access time, key);
(2) when no free block satisfies the request and the head candidate is long
enough, only the head is evicted and the retry succeeds; (3) otherwise the
sweep target is max(size, 5 MiB) and heads are removed until the cumulative
freed length reaches the target or the candidates run out; (4) with no
candidates at all the allocation fails, and set_max_size for a fresh asset
returns false. -/
theorem C3_findFreeBlock_eviction (st : VFS) (size : Int) (immune : Option VKey)
    (h0 : 0 < size)
    (hnd : (st.fileBlocks.map Prod.fst).Nodup)
    (hcons : ∀ e ∈ st.fileBlocks, e.2.fileID = e.1.id ∧ e.2.fileType = e.1.ty)
    (hnn : ∀ c ∈ st.free.byLoc, 0 ≤ c.len) :
    ((buildLRU st.fileBlocks immune).Perm (st.fileBlocks.filter (lruPred immune)) ∧
      (buildLRU st.fileBlocks immune).Pairwise (fun x y => lruLt y x = false)) ∧
    (∀ k fb rest, lookupFree st.free.byLen size = none →
      buildLRU st.fileBlocks immune = (k, fb) :: rest →
      size ≤ fb.len → findBlock st.fileBlocks k = some fb →
      ∃ st1 blk, removeFileBlock st k = some st1 ∧
        st1.free = addFreeBlock st.free ⟨fb.loc, fb.len⟩ ∧
        lookupFree st1.free.byLen size = some blk ∧ size ≤ blk.len ∧
        findFreeBlock st size immune = some (some blk, st1)) ∧
    (∀ k fb rest, lookupFree st.free.byLen size = none →
      buildLRU st.fileBlocks immune = (k, fb) :: rest →
      fb.len < size →
      (if VFS_CLEANUP_SIZE < size then size else VFS_CLEANUP_SIZE) = max size VFS_CLEANUP_SIZE ∧
      (max size VFS_CLEANUP_SIZE ≤
          sumLen (((k, fb) :: rest).take
            (aggrCount ((k, fb) :: rest) (max size VFS_CLEANUP_SIZE) 0)) ∨
        aggrCount ((k, fb) :: rest) (max size VFS_CLEANUP_SIZE) 0 = ((k, fb) :: rest).length) ∧
      (∀ m < aggrCount ((k, fb) :: rest) (max size VFS_CLEANUP_SIZE) 0,
        sumLen (((k, fb) :: rest).take m) < max size VFS_CLEANUP_SIZE) ∧
      findFreeBlock st size immune =
        (removeList st (((k, fb) :: rest).take
          (aggrCount ((k, fb) :: rest) (max size VFS_CLEANUP_SIZE) 0))).bind fun st2 =>
            ffbLoop st2 size (((k, fb) :: rest).drop
              (aggrCount ((k, fb) :: rest) (max size VFS_CLEANUP_SIZE) 0))) ∧
    (lookupFree st.free.byLen size = none → buildLRU st.fileBlocks immune = [] →
      findFreeBlock st size immune = some (none, st) ∧
      ∀ k maxSize now, st.readOnly = false → 0 < maxSize → roundToBlock maxSize = size →
        findBlock st.fileBlocks k = none → immune = none →
        setMaxSize st k maxSize now = some (false, st)) := by
  have hmax : (if VFS_CLEANUP_SIZE < size then size else VFS_CLEANUP_SIZE)
      = max size VFS_CLEANUP_SIZE := by
    rw [max_def]
    split_ifs <;> omega
  refine ⟨?_, ?_, ?_, ?_⟩
  · exact buildLRU_spec st.fileBlocks immune hnd hcons
  · intro k fb rest hlk hbuild hszle hfb
    obtain ⟨st1, hrm, hfree1⟩ := removeFileBlock_spec st k fb hfb (by omega)
    obtain ⟨e, he, hge⟩ := addFreeBlock_ge st.free ⟨fb.loc, fb.len⟩ hnn
    have hsome : (lookupFree st1.free.byLen size).isSome := by
      refine List.find?_isSome.mpr ⟨e, ?_, ?_⟩
      · rw [hfree1]
        exact he
      · simp only [decide_eq_true_eq]
        dsimp only at hge
        omega
    obtain ⟨blk, hblk⟩ := Option.isSome_iff_exists.mp hsome
    have hblkLen : size ≤ blk.len := by
      have hblk2 : st1.free.byLen.find? (fun c => decide (size ≤ c.len)) = some blk := hblk
      have := List.find?_some hblk2
      simpa using this
    refine ⟨st1, blk, hrm, hfree1, hblk, hblkLen, ?_⟩
    unfold findFreeBlock
    rw [hbuild]
    unfold ffbLoop
    rw [hlk]
    dsimp only
    rw [if_pos hszle, hrm]
    cases rest with
    | nil =>
      unfold ffbLoop
      rw [hblk]
    | cons e2 rest2 =>
      unfold ffbLoop
      rw [hblk]
  · intro k fb rest hlk hbuild hszlt
    have hspec := aggrCount_spec ((k, fb) :: rest) (max size VFS_CLEANUP_SIZE) 0
    refine ⟨hmax, ?_, ?_, ?_⟩
    · rcases hspec.1 with h | h
      · left
        omega
      · right
        exact h
    · intro m hm
      have := hspec.2 m hm
      omega
    · unfold findFreeBlock
      rw [hbuild]
      conv_lhs => unfold ffbLoop
      rw [hlk]
      dsimp only
      rw [if_neg (by omega), hmax]
      cases hR : removeList st (((k, fb) :: rest).take
        (aggrCount ((k, fb) :: rest) (max size VFS_CLEANUP_SIZE) 0)) <;> rfl
  · intro hlk hbuild
    have hffb : findFreeBlock st size immune = some (none, st) := by
      unfold findFreeBlock
      rw [hbuild]
      unfold ffbLoop
      rw [hlk]
    refine ⟨hffb, ?_⟩
    intro k maxSize now hro hpos hrtb hfbk himm
    subst himm
    unfold setMaxSize
    rw [hro]
    simp only [Bool.false_eq_true, if_false]
    rw [if_neg (by omega : ¬ maxSize ≤ 0)]
    dsimp only
    rw [hfbk]
    dsimp only
    unfold smsCreate
    rw [hrtb, hffb]
    rfl

/-- C3 witness: on an empty VFS a request for 1024 bytes finds no free block
and no eviction candidates, and set_max_size for a fresh asset returns
false. -/
theorem C3_findFreeBlock_eviction_witness :
    findFreeBlock ⟨[], ⟨[], []⟩, [], [], [], ⟨0, 0, 0⟩, false⟩ 1024 none =
      some (none, ⟨[], ⟨[], []⟩, [], [], [], ⟨0, 0, 0⟩, false⟩) ∧
    setMaxSize ⟨[], ⟨[], []⟩, [], [], [], ⟨0, 0, 0⟩, false⟩ ⟨[7], 1⟩ 1024 5 =
      some (false, ⟨[], ⟨[], []⟩, [], [], [], ⟨0, 0, 0⟩, false⟩) := by
  have h := (C3_findFreeBlock_eviction ⟨[], ⟨[], []⟩, [], [], [], ⟨0, 0, 0⟩, false⟩ 1024 none
      (by norm_num) (by simp)
      (fun e he => absurd he (List.not_mem_nil e))
      (fun c hc => absurd hc (List.not_mem_nil c))).2.2.2 rfl rfl
  exact ⟨h.1, h.2 ⟨[7], 1⟩ 1024 5 rfl (by norm_num) (by decide) rfl rfl⟩

end LLVFS
